import Mathlib

/-!
# Textbook RSA of `cvcore/rsa-by-hand`: a shallow embedding

The development embeds `myrsa/math.go` (`expMod`), `myrsa/encrypt.go`
(`EncryptNaive`), `myrsa/decrypt.go` (`DecryptNaive`) and the two key records of
`myrsa/keys.go`.

Conventions of the embedding.

* A `*big.Int` is an `Int` (pointers are assumed non-nil, as every caller in the
  repository constructs them).  The methods of `math/big` that the source calls are
  embedded one by one (`setBytes`, `bigBytes`, `bigCmp`, `bigMod`, `bigBit`, and
  `>>>` for `Rsh`), following the documentation of the Go standard library.
* A `[]byte` is a `List Byte` with `Byte = Fin 256`; a `nil` slice returned next to an
  error is `none`.
* A Go call that may stop with a run-time panic returns an `Option`: `none` is the
  panic (`big.Int.Mod` with a zero divisor is the only one reachable here).
* The Go pair `([]byte, error)` is the product `Option (List Byte) × Option GoError`.
* The number of turns of the loop is read from a copy of the loop with counters
  (`expModLoopCount`), proved to return the value of the loop.
* What a call leaves in the cells of its caller is read from a second embedding over an
  explicit store of `big.Int` cells (`Store`, `expModS`, `EncryptNaiveS`,
  `DecryptNaiveS`), proved to return what the functions on values return.
-/

namespace MyRSA

/-! ## The data model -/

/-- One Go `byte`. -/
abbrev Byte := Fin 256

/-- The error values of package `myrsa` (`encrypt.go`, line 8). -/
inductive GoError where
  | ErrMessageTooLong
  deriving DecidableEq, Repr

/-- The record `PublicKey` of `keys.go`.  `E` is a Go `int`; the conversion
`int64(pub.E)` keeps its value, so the field is kept as an integer. -/
structure PublicKey where
  N : Int
  E : Int
  deriving DecidableEq, Repr

/-- The record `PrivateKey` of `keys.go`. -/
structure PrivateKey where
  P : Int
  Q : Int
  D : Int
  Dp : Int
  Dq : Int
  Qinv : Int
  deriving DecidableEq, Repr

/-- The Go result pair `([]byte, error)`; `none` in the first place is a `nil` slice,
`none` in the second place is a `nil` error. -/
abbrev Result := Option (List Byte) × Option GoError

/-! ## The operations of `math/big` used by the source -/

/-- Method `(*big.Int).SetBytes`: the buffer read as a big-endian unsigned integer. -/
def setBytes (buf : List Byte) : Nat :=
  buf.foldl (fun z b => z * 256 + b.val) 0

/-- Big-endian bytes of a natural number, most significant byte first, without
leading zero bytes; zero gives the empty slice. -/
def natBytes (n : Nat) : List Byte :=
  if n = 0 then [] else natBytes (n / 256) ++ [⟨n % 256, Nat.mod_lt n (by decide)⟩]
termination_by n
decreasing_by omega

/-- Method `(*big.Int).Bytes`: the absolute value as a big-endian byte slice. -/
def bigBytes (x : Int) : List Byte := natBytes x.natAbs

/-- Method `(*big.Int).Cmp`: `-1`, `0` or `+1`. -/
def bigCmp (x y : Int) : Int :=
  if x < y then -1 else if x = y then 0 else 1

/-- Method `(*big.Int).Mod`: Euclidean modulus; a zero divisor is a run-time panic. -/
def bigMod (x y : Int) : Option Int :=
  if y = 0 then none else some (x % y)

/-- Method `(*big.Int).Bit`: the value of bit `i`, that is `(x >> i) & 1`. -/
def bigBit (x : Int) (i : Nat) : Int := (x >>> i) % 2

/-! ## `myrsa/math.go` -/

/-- The `for` loop of `expMod` (lines 11 to 17), started in the state
`(result, base, exp)`; `mod` is never written. -/
def expModLoop (result base exp mod : Int) : Option Int :=
  if _h : bigCmp exp 0 > 0 then do
    let result ← if bigBit exp 0 = 1 then bigMod (result * base) mod else pure result
    let exp1 := exp >>> (1 : Nat)
    let base ← bigMod (base * base) mod
    expModLoop result base exp1 mod
  else pure result
termination_by exp.toNat
decreasing_by
  have hpos : 0 < exp := by
    unfold bigCmp at _h
    split_ifs at _h <;> omega
  rw [Int.shiftRight_eq_div_pow]
  omega

/-- The function `expMod` of `math.go`: `result := 1`, private copies of `exp` and
`base`, `base.Mod(base, mod)`, then the loop. -/
def expMod (base exp mod : Int) : Option Int := do
  let result : Int := 1
  let base ← bigMod base mod
  expModLoop result base exp mod

/-! ## `myrsa/encrypt.go` and `myrsa/decrypt.go` -/

/-- The function `EncryptNaive` of `encrypt.go`. -/
def EncryptNaive (pub : PublicKey) (message : List Byte) : Option Result :=
  let mBig : Int := (setBytes message : Nat)
  if bigCmp mBig pub.N ≥ 0 then
    some (none, some GoError.ErrMessageTooLong)
  else do
    let cipher ← expMod mBig pub.E pub.N
    some (some (bigBytes cipher), none)

/-- The function `DecryptNaive` of `decrypt.go`. -/
def DecryptNaive (priv : PrivateKey) (cipher : List Byte) : Option Result := do
  let cBig : Int := (setBytes cipher : Nat)
  let nBig : Int := priv.P * priv.Q
  let mBig ← expMod cBig priv.D nBig
  some (some (bigBytes mBig), none)

/-! ## The loop of `expMod` with counters -/

/-- Counters added to the loop of `expMod`: the turns of the loop, the conditional
multiplications `result.Mul(result, base)` (line 13) and the squarings
`base.Mul(base, base)` (line 16) that were run. -/
structure LoopCount where
  iterations : Nat
  multiplications : Nat
  squarings : Nat
  deriving DecidableEq, Repr

/-- The loop of `expMod` (lines 11 to 17) with the counters threaded through; the
counters are written and never read. -/
def expModLoopCount (result base exp mod : Int) (c : LoopCount) : Option (Int × LoopCount) :=
  if _h : bigCmp exp 0 > 0 then do
    let result ← if bigBit exp 0 = 1 then bigMod (result * base) mod else pure result
    let mults := if bigBit exp 0 = 1 then c.multiplications + 1 else c.multiplications
    let exp1 := exp >>> (1 : Nat)
    let base ← bigMod (base * base) mod
    expModLoopCount result base exp1 mod
      { iterations := c.iterations + 1, multiplications := mults, squarings := c.squarings + 1 }
  else pure (result, c)
termination_by exp.toNat
decreasing_by
  have hpos : 0 < exp := by
    unfold bigCmp at _h
    split_ifs at _h <;> omega
  rw [Int.shiftRight_eq_div_pow]
  omega

/-- The function `expMod` with the counters of its loop, started at zero. -/
def expModCount (base exp mod : Int) : Option (Int × LoopCount) := do
  let result : Int := 1
  let base ← bigMod base mod
  expModLoopCount result base exp mod { iterations := 0, multiplications := 0, squarings := 0 }

/-- The number of binary digits of `n`; `0` for `n = 0`. -/
def bitLength (n : Nat) : Nat := (Nat.digits 2 n).length

/-- The number of binary digits of `n` that are `1`. -/
def popCount (n : Nat) : Nat := (Nat.digits 2 n).sum

/-! ## The same code over a store of mutable `big.Int` cells

In Go the methods of `big.Int` write to their receiver.  To speak about what a call
leaves in the cells of its caller, the three functions are embedded a second time over
an explicit store: a `*big.Int` is the address of a cell, `new(big.Int)` and
`big.NewInt` take the next free address, and each method writes the cell of its
receiver. -/

/-- The `big.Int` cells: `cell a` is the value held at address `a`, and the addresses
below `next` are the allocated ones. -/
structure Store where
  cell : Nat → Int
  next : Nat

/-- Overwrite the cell at address `p`. -/
def Store.write (s : Store) (p : Nat) (v : Int) : Store :=
  { s with cell := fun q => if q = p then v else s.cell q }

/-- Allocation as in `big.NewInt(v)` (and `new(big.Int)` for `v = 0`): the new cell
has the address `s.next` of the store before the call. -/
def Store.alloc (s : Store) (v : Int) : Store :=
  { cell := fun q => if q = s.next then v else s.cell q, next := s.next + 1 }

/-- Method `z.Set(x)` on the store. -/
def Store.setInt (s : Store) (z x : Nat) : Store := s.write z (s.cell x)

/-- Method `z.Mul(x, y)` on the store. -/
def Store.mulInt (s : Store) (z x y : Nat) : Store := s.write z (s.cell x * s.cell y)

/-- Method `z.Mod(x, y)` on the store; a zero divisor is a run-time panic. -/
def Store.modInt (s : Store) (z x y : Nat) : Option Store :=
  if s.cell y = 0 then none else some (s.write z (s.cell x % s.cell y))

/-- Method `z.Rsh(x, n)` on the store. -/
def Store.rshInt (s : Store) (z x : Nat) (n : Nat) : Store := s.write z (s.cell x >>> n)

/-- One turn of the loop of `expMod` (lines 12 to 16) on the store; `result`, `base`,
`exp` and `mod` are the addresses held by the four pointer variables. -/
def expModStep (result base exp mod : Nat) (s : Store) : Option Store :=
  (if bigBit (s.cell exp) 0 = 1 then
      (s.mulInt result result base).modInt result result mod
    else some s).bind fun s1 =>
  let s2 := s1.rshInt exp exp 1
  let s3 := s2.mulInt base base base
  s3.modInt base base mod

/-- The loop of `expMod` on the store.  Each evaluation of the guard
`exp.Cmp(big.NewInt(0)) > 0` allocates the cell of the constant.  The pointer variable
`exp` holds a cell of its own (the copy made at line 8), different from the cells of
`result` and `base`; this is what makes the loop end. -/
def expModLoopS (result base exp mod : Nat) (hre : result ≠ exp) (hbe : base ≠ exp)
    (s : Store) : Option Store :=
  if _h : bigCmp ((s.alloc 0).cell exp) ((s.alloc 0).cell s.next) > 0 then
    match _hs : expModStep result base exp mod (s.alloc 0) with
    | none => none
    | some s1 => expModLoopS result base exp mod hre hbe s1
  else some (s.alloc 0)
termination_by ((s.alloc 0).cell exp).toNat
decreasing_by
  have hzero : (s.alloc 0).cell s.next = 0 := by
    simp only [Store.alloc, if_true]
  have hpos : 0 < (s.alloc 0).cell exp := by
    rw [hzero] at _h
    unfold bigCmp at _h
    split_ifs at _h <;> omega
  have hexp : s1.cell exp = (s.alloc 0).cell exp >>> (1 : Nat) := by
    unfold expModStep at _hs
    simp only [Option.bind_eq_some] at _hs
    obtain ⟨t, ht, hs1⟩ := _hs
    have ht_exp : t.cell exp = (s.alloc 0).cell exp := by
      split_ifs at ht
      · unfold Store.modInt at ht
        split_ifs at ht
        injection ht with ht
        rw [← ht]
        simp [Store.write, Store.mulInt, Ne.symm hre]
      · injection ht with ht
        rw [← ht]
    unfold Store.modInt at hs1
    split_ifs at hs1
    injection hs1 with hs1
    rw [← hs1, ← ht_exp]
    simp [Store.write, Store.mulInt, Store.rshInt, Ne.symm hbe]
  have hnew : (s1.alloc 0).cell exp = s1.cell exp ∨ (s1.alloc 0).cell exp = 0 := by
    simp only [Store.alloc]
    split_ifs
    · exact Or.inr rfl
    · exact Or.inl rfl
  rw [Int.shiftRight_eq_div_pow] at hexp
  rcases hnew with h | h <;> rw [h] <;> omega

/-- The function `expMod` on the store: the arguments are the addresses passed by the
caller; `result`, the copy of `exp` and the copy of `base` are three new cells, and
the pointer variables `exp` and `base` are rebound to the copies (lines 7 to 9).  The
returned pair is the address of `result` and the store after the call. -/
def expModS (base exp mod : Nat) (s : Store) : Option (Nat × Store) :=
  let result := s.next
  let s1 := s.alloc 1
  let exp1 := s1.next
  let s2 := (s1.alloc 0).setInt exp1 exp
  let base1 := s2.next
  let s3 := (s2.alloc 0).setInt base1 base
  (s3.modInt base1 base1 mod).bind fun s4 =>
  (expModLoopS result base1 exp1 mod
    (by show s.next ≠ s.next + 1; omega) (by show s.next + 1 + 1 ≠ s.next + 1; omega) s4).bind
  fun s5 => some (result, s5)

/-- The record `PublicKey` with the field `N` as the address of its `big.Int`. -/
structure PublicKeyS where
  N : Nat
  E : Int

/-- The record `PrivateKey` with its six fields as addresses. -/
structure PrivateKeyS where
  P : Nat
  Q : Nat
  D : Nat
  Dp : Nat
  Dq : Nat
  Qinv : Nat

/-- The function `EncryptNaive` on the store. -/
def EncryptNaiveS (pub : PublicKeyS) (message : List Byte) (s : Store) :
    Option (Result × Store) :=
  let mBig := s.next
  let s1 := (s.alloc 0).write mBig ((setBytes message : Nat) : Int)
  if bigCmp (s1.cell mBig) (s1.cell pub.N) ≥ 0 then
    some ((none, some GoError.ErrMessageTooLong), s1)
  else
    let e := s1.next
    let s2 := s1.alloc pub.E
    (expModS mBig e pub.N s2).bind fun r =>
    some ((some (bigBytes (r.2.cell r.1)), none), r.2)

/-- The function `DecryptNaive` on the store. -/
def DecryptNaiveS (priv : PrivateKeyS) (cipher : List Byte) (s : Store) :
    Option (Result × Store) :=
  let cBig := s.next
  let s1 := (s.alloc 0).write cBig ((setBytes cipher : Nat) : Int)
  let nBig := s1.next
  let s2 := (s1.alloc 0).mulInt nBig priv.P priv.Q
  (expModS cBig priv.D nBig s2).bind fun r =>
  some ((some (bigBytes (r.2.cell r.1)), none), r.2)

/-- The store whose allocated cells hold the values of a list, in order. -/
def Store.ofList (l : List Int) : Store :=
  { cell := fun a => l.getD a 0, next := l.length }

/-! ## The closed form used to state what `expMod` computes -/

/-- The closed form of the value of `expMod` for a non-zero modulus (proved equal to
the loop in `expMod_eq_value`): `base ^ exp` reduced modulo `mod` when `exp > 0`, and
the initial `result = 1` when the loop body never runs. -/
def expModValue (base exp mod : Int) : Int :=
  if 0 < exp then (base ^ exp.toNat) % mod else 1

/-! ## Facts about the `math/big` operations -/

theorem bigCmp_nonneg_iff (x y : Int) : bigCmp x y ≥ 0 ↔ y ≤ x := by
  unfold bigCmp
  split_ifs <;> omega

theorem bigCmp_zero_pos_iff (x : Int) : bigCmp x 0 > 0 ↔ 0 < x := by
  unfold bigCmp
  split_ifs <;> omega

theorem bigMod_of_ne {y : Int} (hy : y ≠ 0) (x : Int) : bigMod x y = some (x % y) := by
  simp [bigMod, hy]

theorem bigBit_zero (x : Int) : bigBit x 0 = x % 2 := by
  simp [bigBit, Int.shiftRight_eq_div_pow]

theorem setBytes_nil : setBytes [] = 0 := rfl

theorem setBytes_append_singleton (xs : List Byte) (b : Byte) :
    setBytes (xs ++ [b]) = setBytes xs * 256 + b.val := by
  simp [setBytes, List.foldl_append]

theorem setBytes_zero_cons (xs : List Byte) : setBytes ((0 : Byte) :: xs) = setBytes xs := by
  simp [setBytes]

theorem setBytes_replicate_zero_append (k : Nat) (xs : List Byte) :
    setBytes (List.replicate k (0 : Byte) ++ xs) = setBytes xs := by
  induction k with
  | zero => simp
  | succ k ih => rw [List.replicate_succ, List.cons_append, setBytes_zero_cons, ih]

theorem natBytes_zero : natBytes 0 = [] := by
  rw [natBytes]; simp

theorem natBytes_of_pos {n : Nat} (hn : n ≠ 0) :
    natBytes n = natBytes (n / 256) ++ [⟨n % 256, Nat.mod_lt n (by decide)⟩] := by
  rw [natBytes]; simp [hn]

theorem natBytes_eq_nil_iff (n : Nat) : natBytes n = [] ↔ n = 0 := by
  constructor
  · intro h
    by_contra hn
    rw [natBytes_of_pos hn] at h
    simp at h
  · rintro rfl
    exact natBytes_zero

/-- Decoding the minimal encoding gives the number back. -/
theorem setBytes_natBytes (n : Nat) : setBytes (natBytes n) = n := by
  induction n using Nat.strong_induction_on with
  | _ n ih =>
    by_cases hn : n = 0
    · subst hn; rw [natBytes_zero]; rfl
    · rw [natBytes_of_pos hn, setBytes_append_singleton, ih (n / 256) (by omega)]
      simp only
      omega

/-- The minimal encoding never starts with a zero byte. -/
theorem natBytes_head_ne_zero (n : Nat) : (natBytes n).head? ≠ some (0 : Byte) := by
  induction n using Nat.strong_induction_on with
  | _ n ih =>
    by_cases hn : n = 0
    · subst hn; rw [natBytes_zero]; simp
    · rw [natBytes_of_pos hn]
      by_cases hq : n / 256 = 0
      · rw [hq, natBytes_zero]
        simp only [List.nil_append, List.head?_cons, ne_eq, Option.some.injEq]
        intro h
        have h2 := congrArg Fin.val h
        simp only [Fin.val_zero] at h2
        omega
      · have hne : natBytes (n / 256) ≠ [] := by
          rw [ne_eq, natBytes_eq_nil_iff]; exact hq
        obtain ⟨a, l, hal⟩ := List.exists_cons_of_ne_nil hne
        have := ih (n / 256) (by omega)
        rw [hal] at this ⊢
        simpa using this

theorem setBytes_bigBytes (x : Int) : setBytes (bigBytes x) = x.natAbs :=
  setBytes_natBytes _

theorem bigBytes_head_ne_zero (x : Int) : (bigBytes x).head? ≠ some (0 : Byte) :=
  natBytes_head_ne_zero _

theorem bigBytes_eq_nil_iff (x : Int) : bigBytes x = [] ↔ x = 0 := by
  unfold bigBytes
  rw [natBytes_eq_nil_iff]
  exact Int.natAbs_eq_zero

/-! ## The loop of `expMod` -/

/-- One turn of the loop: the guard holds. -/
theorem expModLoop_of_pos {exp : Int} (h : 0 < exp) (result base mod : Int) :
    expModLoop result base exp mod =
      (do
        let result ← if bigBit exp 0 = 1 then bigMod (result * base) mod else pure result
        let base ← bigMod (base * base) mod
        expModLoop result base (exp >>> (1 : Nat)) mod) := by
  rw [expModLoop]
  simp [(bigCmp_zero_pos_iff exp).mpr h]

/-- The loop is left at once: the guard fails. -/
theorem expModLoop_of_nonpos {exp : Int} (h : exp ≤ 0) (result base mod : Int) :
    expModLoop result base exp mod = some result := by
  rw [expModLoop]
  have : ¬ bigCmp exp 0 > 0 := by
    rw [bigCmp_zero_pos_iff]; omega
  simp [this]

/-- With a zero modulus every turn of the loop panics. -/
theorem expMod_zero_mod (base exp : Int) : expMod base exp 0 = none := by
  simp [expMod, bigMod]

/-- The loop invariant, in closed form: started at `(result, base, exp)` with
`exp > 0`, the loop returns `result * base ^ exp` reduced modulo `mod`. -/
theorem expModLoop_eq (mod : Int) (hmod : mod ≠ 0) :
    ∀ (n : Nat) (exp : Int), exp.toNat = n → 0 < exp → ∀ (result base : Int),
      expModLoop result base exp mod = some ((result * base ^ exp.toNat) % mod) := by
  intro n
  induction n using Nat.strong_induction_on with
  | _ n ih =>
    intro exp hn hpos result base
    have hsh : exp >>> (1 : Nat) = exp / 2 := by
      rw [Int.shiftRight_eq_div_pow]; norm_num
    rw [expModLoop_of_pos hpos, bigBit_zero, hsh]
    have hsq : ((base * base) % mod) ≡ base ^ 2 [ZMOD mod] := by
      rw [pow_two]; exact Int.mod_modEq _ _
    by_cases hodd : exp % 2 = 1
    · have hexp : exp.toNat = 2 * (exp / 2).toNat + 1 := by omega
      have hgoal : ∀ (k : Nat), k = (exp / 2).toNat →
          ((result * base) % mod * ((base * base) % mod) ^ k) % mod
            = (result * base ^ (2 * k + 1)) % mod := by
        intro k _
        have h1 : ((result * base) % mod * ((base * base) % mod) ^ k)
            ≡ (result * base) * (base ^ 2) ^ k [ZMOD mod] :=
          Int.ModEq.mul (Int.mod_modEq _ _) (hsq.pow k)
        have h2 : (result * base) * (base ^ 2) ^ k = result * base ^ (2 * k + 1) := by
          rw [← pow_mul]; ring
        rw [h2] at h1
        exact h1
      simp only [hodd, if_true, bigMod_of_ne hmod, Option.bind_eq_bind, Option.some_bind]
      by_cases hhalf : 0 < exp / 2
      · rw [ih (exp / 2).toNat (by omega) (exp / 2) rfl hhalf, hexp,
          hgoal (exp / 2).toNat rfl]
      · rw [expModLoop_of_nonpos (by omega)]
        have hz : (exp / 2).toNat = 0 := by omega
        rw [hexp, hz]
        simp
    · have hexp : exp.toNat = 2 * (exp / 2).toNat := by omega
      have hhalf : 0 < exp / 2 := by omega
      have hgoal : (result * ((base * base) % mod) ^ (exp / 2).toNat) % mod
            = (result * base ^ (2 * (exp / 2).toNat)) % mod := by
        have h1 : (result * ((base * base) % mod) ^ (exp / 2).toNat)
            ≡ result * (base ^ 2) ^ (exp / 2).toNat [ZMOD mod] :=
          Int.ModEq.mul rfl (hsq.pow _)
        rw [← pow_mul] at h1
        exact h1
      simp only [hodd, if_false, bigMod_of_ne hmod, Option.bind_eq_bind, Option.some_bind,
        Option.pure_def]
      rw [ih (exp / 2).toNat (by omega) (exp / 2) rfl hhalf, hexp, hgoal]

/-- What `expMod` returns for a non-zero modulus: `base ^ exp` reduced modulo `mod`
when `exp > 0`, and the untouched initial `result = 1` otherwise. -/
theorem expMod_eq {mod : Int} (hmod : mod ≠ 0) (base exp : Int) :
    expMod base exp mod = some (if 0 < exp then (base ^ exp.toNat) % mod else 1) := by
  unfold expMod
  simp only [bigMod_of_ne hmod, Option.bind_eq_bind, Option.some_bind]
  by_cases hpos : 0 < exp
  · rw [expModLoop_eq mod hmod exp.toNat exp rfl hpos, if_pos hpos, one_mul]
    congr 1
    exact ((Int.mod_modEq base mod).pow _)
  · rw [expModLoop_of_nonpos (by omega), if_neg hpos]

/-! ## Closed forms of the two transforms -/

theorem expMod_eq_value {mod : Int} (hmod : mod ≠ 0) (base exp : Int) :
    expMod base exp mod = some (expModValue base exp mod) :=
  expMod_eq hmod base exp

theorem expModValue_nonneg {mod : Int} (hmod : mod ≠ 0) (base exp : Int) :
    0 ≤ expModValue base exp mod := by
  unfold expModValue
  split_ifs
  · exact Int.emod_nonneg _ hmod
  · exact Int.one_nonneg

theorem encrypt_of_ge (pub : PublicKey) (message : List Byte)
    (h : pub.N ≤ (setBytes message : Nat)) :
    EncryptNaive pub message = some (none, some GoError.ErrMessageTooLong) := by
  unfold EncryptNaive
  simp only
  rw [if_pos ((bigCmp_nonneg_iff _ _).mpr h)]

theorem encrypt_of_lt (pub : PublicKey) (message : List Byte)
    (h : ((setBytes message : Nat) : Int) < pub.N) :
    EncryptNaive pub message
      = some (some (bigBytes (expModValue (setBytes message : Nat) pub.E pub.N)), none) := by
  have hN : pub.N ≠ 0 := by
    have : (0 : Int) ≤ (setBytes message : Nat) := Int.natCast_nonneg _
    omega
  have hcmp : ¬ bigCmp ((setBytes message : Nat) : Int) pub.N ≥ 0 := by
    rw [bigCmp_nonneg_iff]; omega
  unfold EncryptNaive
  simp only
  rw [if_neg hcmp, expMod_eq_value hN]
  rfl

theorem decrypt_of_ne (priv : PrivateKey) (cipher : List Byte) (h : priv.P * priv.Q ≠ 0) :
    DecryptNaive priv cipher
      = some (some (bigBytes (expModValue (setBytes cipher : Nat) priv.D (priv.P * priv.Q))),
          none) := by
  unfold DecryptNaive
  simp only
  rw [expMod_eq_value h]
  rfl

/-! ## The arithmetic behind the round trip -/

/-- Fermat: an exponent that is `1` modulo `p - 1` fixes every residue modulo `p`. -/
theorem pow_modEq_self_of_prime {p : Nat} (hp : p.Prime) {k : Nat} (hk : 1 ≤ k)
    (hdvd : (p - 1) ∣ (k - 1)) (m : Nat) : m ^ k ≡ m [MOD p] := by
  haveI := Fact.mk hp
  rw [← ZMod.eq_iff_modEq_nat]
  push_cast
  by_cases ha : (m : ZMod p) = 0
  · rw [ha, zero_pow (by omega)]
  · obtain ⟨t, ht⟩ := hdvd
    have hk2 : k = (p - 1) * t + 1 := by omega
    rw [hk2, pow_succ, pow_mul, ZMod.pow_card_sub_one_eq_one ha, one_pow, one_mul]

/-- The same for a product of two distinct primes. -/
theorem pow_modEq_self_of_two_primes {p q : Nat} (hp : p.Prime) (hq : q.Prime) (hpq : p ≠ q)
    {k : Nat} (hk : 1 ≤ k) (hdvd : Nat.lcm (p - 1) (q - 1) ∣ (k - 1)) (m : Nat) :
    m ^ k ≡ m [MOD p * q] := by
  have hcop : Nat.Coprime p q := (Nat.coprime_primes hp hq).mpr hpq
  exact (Nat.modEq_and_modEq_iff_modEq_mul hcop).mp
    ⟨pow_modEq_self_of_prime hp hk ((Nat.dvd_lcm_left _ _).trans hdvd) m,
     pow_modEq_self_of_prime hq hk ((Nat.dvd_lcm_right _ _).trans hdvd) m⟩

/-- For two distinct primes the number `lcm (p - 1) (q - 1)` is at least two. -/
theorem two_le_lcm_pred {p q : Nat} (hp : p.Prime) (hq : q.Prime) (hpq : p ≠ q) :
    2 ≤ Nat.lcm (p - 1) (q - 1) := by
  have hp2 := hp.two_le
  have hq2 := hq.two_le
  have hpos : 0 < Nat.lcm (p - 1) (q - 1) :=
    Nat.lcm_pos (by omega) (by omega)
  by_contra hlt
  have h1 : Nat.lcm (p - 1) (q - 1) = 1 := by omega
  have ha : p - 1 ∣ 1 := by
    have := Nat.dvd_lcm_left (p - 1) (q - 1)
    rwa [h1] at this
  have hb : q - 1 ∣ 1 := by
    have := Nat.dvd_lcm_right (p - 1) (q - 1)
    rwa [h1] at this
  have := Nat.le_of_dvd one_pos ha
  have := Nat.le_of_dvd one_pos hb
  omega

/-! ## The round trip (`tests/roundtrip_test.go`) -/

/-- The integer identity behind the round trip: decrypting the encrypted value of a
message below `p * q` gives the message back. -/
theorem expModValue_roundtrip {p q : Nat} (hp : p.Prime) (hq : q.Prime) (hpq : p ≠ q)
    {E D : Int} (hE : 1 ≤ E) (hD : 0 ≤ D)
    (hED : E * D ≡ 1 [ZMOD ((Nat.lcm (p - 1) (q - 1) : Nat) : Int)])
    {m : Nat} (hm : m < p * q) :
    expModValue (((expModValue (m : Int) E ((p * q : Nat) : Int)).natAbs : Nat) : Int) D
      ((p : Int) * (q : Int)) = (m : Int) := by
  have hL := two_le_lcm_pred hp hq hpq
  have hdvdI : ((Nat.lcm (p - 1) (q - 1) : Nat) : Int) ∣ E * D - 1 :=
    Int.modEq_iff_dvd.mp hED.symm
  have hD1 : 1 ≤ D := by
    by_contra hlt
    have hD0 : D = 0 := by omega
    rw [hD0, mul_zero, zero_sub, dvd_neg] at hdvdI
    have := Int.le_of_dvd one_pos hdvdI
    omega
  lift E to ℕ using (by omega) with e
  lift D to ℕ using hD with d
  have he : 1 ≤ e := by exact_mod_cast hE
  have hd : 1 ≤ d := by exact_mod_cast hD1
  have hk : 1 ≤ e * d := Nat.one_le_iff_ne_zero.mpr (Nat.mul_ne_zero (by omega) (by omega))
  have hdvd : Nat.lcm (p - 1) (q - 1) ∣ e * d - 1 := by
    have hcast : ((e : Int) * (d : Int) - 1) = ((e * d - 1 : Nat) : Int) := by
      push_cast [Nat.cast_sub hk]; ring
    rw [hcast] at hdvdI
    exact Int.natCast_dvd_natCast.mp hdvdI
  have key : ((m : Int) ^ (e * d)) ≡ (m : Int) [ZMOD ((p * q : Nat) : Int)] := by
    have := pow_modEq_self_of_two_primes hp hq hpq hk hdvd m
    exact_mod_cast (Int.natCast_modEq_iff.mpr this)
  have hn0 : ((p * q : Nat) : Int) ≠ 0 := by
    have : 0 < p * q := by omega
    exact_mod_cast this.ne'
  have hr1 : 0 ≤ expModValue (m : Int) (e : Int) ((p * q : Nat) : Int) :=
    expModValue_nonneg hn0 _ _
  rw [Int.natAbs_of_nonneg hr1]
  have hpqcast : (p : Int) * (q : Int) = ((p * q : Nat) : Int) := by push_cast; rfl
  rw [hpqcast]
  unfold expModValue
  rw [if_pos (by exact_mod_cast hd), if_pos (by exact_mod_cast he), Int.toNat_natCast,
    Int.toNat_natCast]
  have h1 : (((m : Int) ^ e) % ((p * q : Nat) : Int)) ^ d ≡ (m : Int) [ZMOD ((p * q : Nat) : Int)] := by
    have h2 : (((m : Int) ^ e) % ((p * q : Nat) : Int)) ^ d ≡ ((m : Int) ^ e) ^ d
        [ZMOD ((p * q : Nat) : Int)] := (Int.mod_modEq _ _).pow d
    rw [← pow_mul] at h2
    exact h2.trans key
  have h3 : (m : Int) % ((p * q : Nat) : Int) = (m : Int) :=
    Int.emod_eq_of_lt (Int.natCast_nonneg _) (by exact_mod_cast hm)
  have h4 := h1
  unfold Int.ModEq at h4
  rw [h3] at h4
  exact h4

/-- C1. Round trip: for distinct primes `p`, `q`, exponents `E ≥ 1`, `D ≥ 0` with
`E * D ≡ 1` modulo `lcm (p - 1) (q - 1)` and a message whose big-endian value is below
`p * q`, `EncryptNaive` under `(N = p * q, E)` succeeds with a ciphertext, `DecryptNaive`
under `(P = p, Q = q, D)` succeeds on it (whatever the CRT fields hold), and the
decrypted bytes decode to the integer of the message. -/
theorem roundtrip_naive (p q : Nat) (hp : p.Prime) (hq : q.Prime) (hpq : p ≠ q)
    (E D : Int) (hE : 1 ≤ E) (hD : 0 ≤ D)
    (hED : E * D ≡ 1 [ZMOD ((Nat.lcm (p - 1) (q - 1) : Nat) : Int)])
    (Dp Dq Qinv : Int) (message : List Byte) (hm : setBytes message < p * q) :
    ∃ c : List Byte,
      EncryptNaive { N := ((p * q : Nat) : Int), E := E } message = some (some c, none) ∧
      ∃ d : List Byte,
        DecryptNaive { P := p, Q := q, D := D, Dp := Dp, Dq := Dq, Qinv := Qinv } c
          = some (some d, none) ∧
        setBytes d = setBytes message := by
  have hpos : 0 < p * q := Nat.mul_pos hp.pos hq.pos
  have hlt : ((setBytes message : Nat) : Int) < ((p * q : Nat) : Int) := by exact_mod_cast hm
  refine ⟨_, encrypt_of_lt _ _ hlt, _, decrypt_of_ne _ _ ?_, ?_⟩
  · show (p : Int) * (q : Int) ≠ 0
    exact_mod_cast hpos.ne'
  · rw [setBytes_bigBytes, setBytes_bigBytes]
    show (expModValue _ D ((p : Int) * (q : Int))).natAbs = setBytes message
    rw [expModValue_roundtrip hp hq hpq hE hD hED hm]
    exact Int.natAbs_ofNat _

/-- C1, at the keys of the repository tests: `(p, q, E, D) = (61, 53, 17, 413)` and the
message `1234 = 0x04d2`. -/
theorem roundtrip_naive_witness :
    (Nat.Prime 61 ∧ Nat.Prime 53 ∧ setBytes [0x04, 0xd2] = 1234 ∧ 1234 < 61 * 53) ∧
    ∃ c : List Byte,
      EncryptNaive { N := ((61 * 53 : Nat) : Int), E := 17 } [0x04, 0xd2] = some (some c, none) ∧
      ∃ d : List Byte,
        DecryptNaive { P := (61 : Nat), Q := (53 : Nat), D := 413, Dp := 53, Dq := 5, Qinv := 38 } c
          = some (some d, none) ∧
        setBytes d = setBytes [0x04, 0xd2] :=
  ⟨⟨by norm_num, by norm_num, by decide, by decide⟩,
   roundtrip_naive 61 53 (by norm_num) (by norm_num) (by decide) 17 413 (by decide)
    (by decide) (by decide) 53 5 38 [0x04, 0xd2] (by decide)⟩

/-! ## `expMod` as modular exponentiation (`myrsa/math_test.go`) -/

/-- C2. For every integer base, every exponent `≥ 0` and every modulus `≥ 2`, `expMod`
returns `base ^ exponent` reduced by the Euclidean remainder modulo the modulus; in
particular it returns `1` for the exponent `0`. -/
theorem expMod_spec (base exp mod : Int) (hexp : 0 ≤ exp) (hmod : 2 ≤ mod) :
    expMod base exp mod = some (base ^ exp.toNat % mod) ∧ expMod base 0 mod = some 1 := by
  have hne : mod ≠ 0 := by omega
  have h1 : (1 : Int) % mod = 1 := Int.emod_eq_of_lt (by omega) (by omega)
  refine ⟨?_, ?_⟩
  · rw [expMod_eq hne]
    by_cases hpos : 0 < exp
    · rw [if_pos hpos]
    · have h0 : exp = 0 := by omega
      rw [if_neg hpos, h0]
      simp [h1]
  · rw [expMod_eq hne]
    simp

/-- C2, at the first vector of `TestExpMod`: `expMod(2, 3, 10) = 8`. -/
theorem expMod_spec_witness :
    ((0 : Int) ≤ 3 ∧ (2 : Int) ≤ 10) ∧
    (expMod 2 3 10 = some (2 ^ (3 : Int).toNat % 10) ∧ expMod 2 0 10 = some 1) ∧
    (2 : Int) ^ (3 : Int).toNat % 10 = 8 :=
  ⟨⟨by decide, by decide⟩, expMod_spec 2 3 10 (by decide) (by decide), by decide⟩

/-- With the modulus `1` and the exponent `0` the loop body never runs and the
initial `result = 1` is returned unreduced, for every base: the value is `1`, not the
residue `0`.  For every exponent `≥ 1` the value is `0`. -/
theorem expMod_mod_one (base : Int) :
    expMod base 0 1 = some 1 ∧ ∀ exp : Int, 1 ≤ exp → expMod base exp 1 = some 0 := by
  refine ⟨?_, ?_⟩
  · rw [expMod_eq one_ne_zero]
    simp
  · intro exp hexp
    rw [expMod_eq one_ne_zero, if_pos (by omega)]
    simp

/-! ## `EncryptNaive` (`myrsa/encrypt_test.go`) -/

/-- C4. `EncryptNaive` returns `(nil, ErrMessageTooLong)` exactly when the value of the
message is at least `N`; below `N` it returns bytes with a `nil` error; it never panics,
and an error, when there is one, is `ErrMessageTooLong` next to a `nil` output. -/
theorem encrypt_error_iff (pub : PublicKey) (message : List Byte) :
    (EncryptNaive pub message = some (none, some GoError.ErrMessageTooLong)
        ↔ pub.N ≤ ((setBytes message : Nat) : Int)) ∧
    ((((setBytes message : Nat) : Int) < pub.N)
        ↔ ∃ c : List Byte, EncryptNaive pub message = some (some c, none)) ∧
    EncryptNaive pub message ≠ none ∧
    (∀ (out : Option (List Byte)) (e : GoError),
        EncryptNaive pub message = some (out, some e) →
          e = GoError.ErrMessageTooLong ∧ out = none ∧
            pub.N ≤ ((setBytes message : Nat) : Int)) := by
  by_cases h : pub.N ≤ ((setBytes message : Nat) : Int)
  · have hE := encrypt_of_ge pub message h
    refine ⟨⟨fun _ => h, fun _ => hE⟩, ⟨fun hlt => absurd h (by omega), ?_⟩, ?_, ?_⟩
    · rintro ⟨c, hc⟩
      rw [hE] at hc
      simp at hc
    · rw [hE]; simp
    · intro out e he
      rw [hE] at he
      injection he with he
      injection he with hout _
      exact ⟨by cases e; rfl, hout.symm, h⟩
  · have hlt : ((setBytes message : Nat) : Int) < pub.N := by omega
    have hE := encrypt_of_lt pub message hlt
    refine ⟨⟨fun he => ?_, fun hge => absurd hge h⟩, ⟨fun _ => ⟨_, hE⟩, fun _ => hlt⟩, ?_, ?_⟩
    · rw [hE] at he
      simp at he
    · rw [hE]; simp
    · intro out e he
      rw [hE] at he
      simp at he

/-- C4, at the third case of `TestEncryptNaive`: `N = 143`, `E = 7`, the message
`{0x90, 0x00}` (36864) gives `ErrMessageTooLong`. -/
theorem encrypt_error_iff_witness :
    setBytes [0x90, 0x00] = 36864 ∧
    EncryptNaive { N := 143, E := 7 } [0x90, 0x00]
      = some (none, some GoError.ErrMessageTooLong) :=
  ⟨by decide, (encrypt_error_iff { N := 143, E := 7 } [0x90, 0x00]).1.mpr (by decide)⟩

/-- C5. For a public key with `N ≥ 2` and `E ≥ 0` and a message whose value `m` is
below `N`, `EncryptNaive` succeeds and the returned bytes decode to `m ^ E mod N`. -/
theorem encrypt_value (pub : PublicKey) (message : List Byte) (hN : 2 ≤ pub.N)
    (hE : 0 ≤ pub.E) (hm : ((setBytes message : Nat) : Int) < pub.N) :
    ∃ c : List Byte, EncryptNaive pub message = some (some c, none) ∧
      ((setBytes c : Nat) : Int) = ((setBytes message : Nat) : Int) ^ pub.E.toNat % pub.N := by
  have hne : pub.N ≠ 0 := by omega
  refine ⟨_, encrypt_of_lt pub message hm, ?_⟩
  rw [setBytes_bigBytes, Int.natAbs_of_nonneg (expModValue_nonneg hne _ _)]
  unfold expModValue
  by_cases hpos : 0 < pub.E
  · rw [if_pos hpos]
  · have h0 : pub.E = 0 := by omega
    rw [if_neg hpos, h0]
    simp only [Int.toNat_zero, pow_zero]
    exact (Int.emod_eq_of_lt (by omega) (by omega)).symm

/-- C5, at the first case of `TestEncryptNaive`: `N = 143`, `E = 7`, message `{0x05}`;
the ciphertext decodes to `5 ^ 7 mod 143 = 47 = 0x2f`. -/
theorem encrypt_value_witness :
    ((2 : Int) ≤ 143 ∧ (0 : Int) ≤ 7 ∧ ((setBytes [0x05] : Nat) : Int) < 143) ∧
    (∃ c : List Byte, EncryptNaive { N := 143, E := 7 } [0x05] = some (some c, none) ∧
      ((setBytes c : Nat) : Int) = ((setBytes [0x05] : Nat) : Int) ^ (7 : Int).toNat % 143) ∧
    ((setBytes [0x05] : Nat) : Int) ^ (7 : Int).toNat % 143 = 0x2f :=
  ⟨⟨by decide, by decide, by decide⟩,
   encrypt_value { N := 143, E := 7 } [0x05] (by decide) (by decide) (by decide),
   by decide⟩

/-! ## `DecryptNaive` -/

/-- C6. For a private key with `P * Q ≥ 2` and `D ≥ 0` and a ciphertext of value `c`,
`DecryptNaive` succeeds and the returned bytes decode to `c ^ D mod (P * Q)`: the
modulus is the product of the two stored factors. -/
theorem decrypt_value (priv : PrivateKey) (cipher : List Byte) (hN : 2 ≤ priv.P * priv.Q)
    (hD : 0 ≤ priv.D) :
    ∃ d : List Byte, DecryptNaive priv cipher = some (some d, none) ∧
      ((setBytes d : Nat) : Int)
        = ((setBytes cipher : Nat) : Int) ^ priv.D.toNat % (priv.P * priv.Q) := by
  have hne : priv.P * priv.Q ≠ 0 := by omega
  refine ⟨_, decrypt_of_ne priv cipher hne, ?_⟩
  rw [setBytes_bigBytes, Int.natAbs_of_nonneg (expModValue_nonneg hne _ _)]
  unfold expModValue
  by_cases hpos : 0 < priv.D
  · rw [if_pos hpos]
  · have h0 : priv.D = 0 := by omega
    rw [if_neg hpos, h0]
    simp only [Int.toNat_zero, pow_zero]
    exact (Int.emod_eq_of_lt (by omega) (by omega)).symm

/-- C6, at the small key of the round-trip test: `P = 11`, `Q = 13`, `D = 103` and the
ciphertext `{0x2f}`; the plaintext decodes to `47 ^ 103 mod 143 = 5`. -/
theorem decrypt_value_witness :
    ((2 : Int) ≤ 11 * 13 ∧ (0 : Int) ≤ 103) ∧
    (∃ d : List Byte,
      DecryptNaive { P := 11, Q := 13, D := 103, Dp := 7, Dq := 7, Qinv := 12 } [0x2f]
        = some (some d, none) ∧
      ((setBytes d : Nat) : Int)
        = ((setBytes [0x2f] : Nat) : Int) ^ (103 : Int).toNat % (11 * 13)) ∧
    ((setBytes [0x2f] : Nat) : Int) ^ (103 : Int).toNat % (11 * 13) = 5 :=
  ⟨⟨by decide, by decide⟩,
   decrypt_value { P := 11, Q := 13, D := 103, Dp := 7, Dq := 7, Qinv := 12 } [0x2f]
    (by decide) (by decide),
   by
    show (47 : Int) ^ 103 % (11 * 13) = 5
    norm_num⟩

/-! ## The vectors of the repository tests, evaluated on the embedding -/

/-- Vector of `TestEncryptNaive`, first case: `{0x05}` under `(143, 7)` gives `{0x2f}`. -/
theorem encrypt_vector_05 :
    EncryptNaive { N := 143, E := 7 } [0x05] = some (some [0x2f], none) := by
  rw [encrypt_of_lt _ _ (by decide)]
  have hv : expModValue ((setBytes [0x05] : Nat) : Int) 7 143 = 47 := by
    show (if (0 : Int) < 7 then (5 : Int) ^ 7 % 143 else 1) = 47
    norm_num
  simp only [hv, bigBytes]
  simp [natBytes]

/-- Vector of `TestEncryptNaive`, second case: `{0x23}` under `(143, 7)` gives `{0x8b}`. -/
theorem encrypt_vector_23 :
    EncryptNaive { N := 143, E := 7 } [0x23] = some (some [0x8b], none) := by
  rw [encrypt_of_lt _ _ (by decide)]
  have hv : expModValue ((setBytes [0x23] : Nat) : Int) 7 143 = 139 := by
    show (if (0 : Int) < 7 then (35 : Int) ^ 7 % 143 else 1) = 139
    norm_num
  simp only [hv, bigBytes]
  simp [natBytes]

/-- The round-trip test, zero message: `{0x00}` under `(143, 7)` gives the empty slice. -/
theorem encrypt_vector_00 :
    EncryptNaive { N := 143, E := 7 } [0x00] = some (some [], none) := by
  rw [encrypt_of_lt _ _ (by decide)]
  have hv : expModValue ((setBytes [0x00] : Nat) : Int) 7 143 = 0 := by
    show (if (0 : Int) < 7 then (0 : Int) ^ 7 % 143 else 1) = 0
    norm_num
  simp only [hv, bigBytes]
  simp [natBytes]

/-- The round-trip test, small key: the ciphertext `{0x2f}` under
`(P, Q, D) = (11, 13, 103)` decrypts to `{0x05}`. -/
theorem decrypt_vector_2f :
    DecryptNaive { P := 11, Q := 13, D := 103, Dp := 7, Dq := 7, Qinv := 12 } [0x2f]
      = some (some [0x05], none) := by
  rw [decrypt_of_ne _ _ (by decide)]
  have hv : expModValue ((setBytes [0x2f] : Nat) : Int) 103 (11 * 13) = 5 := by
    show (if (0 : Int) < 103 then (47 : Int) ^ 103 % (11 * 13) else 1) = 5
    norm_num
  simp only [hv, bigBytes]
  simp [natBytes]

/-- C3, evaluated at `(base, exp, mod) = (5, 0, 1)`: `base.Mod` gives `0`, the guard of
the loop fails at once and the initial `result = 1` comes back, where `5 ^ 0 mod 1 = 0`. -/
theorem expMod_five_zero_one : expMod 5 0 1 = some 1 ∧ (5 : Int) ^ 0 % 1 = 0 := by
  refine ⟨?_, by decide⟩
  unfold expMod
  simp only [bigMod, one_ne_zero, if_false, Option.bind_eq_bind, Option.some_bind]
  exact expModLoop_of_nonpos (le_refl 0) _ _ _

/-- The same input reached through the exported interface: under `(N, E) = (1, 0)` the
empty message passes the range check and is encrypted to `{0x01}`, a value that is
not below `N`. -/
theorem encrypt_vector_modulus_one :
    EncryptNaive { N := 1, E := 0 } [] = some (some [0x01], none) := by
  rw [encrypt_of_lt _ _ (by decide)]
  have hv : expModValue ((setBytes [] : Nat) : Int) 0 1 = 1 := by
    show (if (0 : Int) < 0 then (0 : Int) ^ 0 % 1 else 1) = 1
    norm_num
  simp only [hv, bigBytes]
  simp [natBytes]

/-! ## The output encoding -/

theorem decrypt_of_zero (priv : PrivateKey) (cipher : List Byte) (h : priv.P * priv.Q = 0) :
    DecryptNaive priv cipher = none := by
  unfold DecryptNaive
  simp only [h, expMod_zero_mod]
  rfl

/-- A successful `EncryptNaive` returns `Bytes()` of the value computed by `expMod`. -/
theorem encrypt_output_form (pub : PublicKey) (message c : List Byte)
    (h : EncryptNaive pub message = some (some c, none)) :
    ∃ r : Int, expMod ((setBytes message : Nat) : Int) pub.E pub.N = some r ∧
      c = bigBytes r := by
  by_cases hge : pub.N ≤ ((setBytes message : Nat) : Int)
  · rw [encrypt_of_ge pub message hge] at h
    simp at h
  · have hlt : ((setBytes message : Nat) : Int) < pub.N := by omega
    have hne : pub.N ≠ 0 := by
      have : (0 : Int) ≤ (setBytes message : Nat) := Int.natCast_nonneg _
      omega
    rw [encrypt_of_lt pub message hlt] at h
    injection h with h
    injection h with h _
    injection h with h
    exact ⟨_, expMod_eq_value hne _ _, h.symm⟩

/-- A successful `DecryptNaive` returns `Bytes()` of the value computed by `expMod`. -/
theorem decrypt_output_form (priv : PrivateKey) (cipher d : List Byte)
    (h : DecryptNaive priv cipher = some (some d, none)) :
    ∃ r : Int, expMod ((setBytes cipher : Nat) : Int) priv.D (priv.P * priv.Q) = some r ∧
      d = bigBytes r := by
  by_cases hz : priv.P * priv.Q = 0
  · rw [decrypt_of_zero priv cipher hz] at h
    simp at h
  · rw [decrypt_of_ne priv cipher hz] at h
    injection h with h
    injection h with h _
    injection h with h
    exact ⟨_, expMod_eq_value hz _ _, h.symm⟩

/-- C7. Every byte sequence returned by a successful `EncryptNaive` or `DecryptNaive`
is `Bytes()` of the integer `r` computed by `expMod` (the same convention for both): it
does not start with a zero byte, and it is empty exactly when `r = 0`. -/
theorem output_minimal :
    (∀ (pub : PublicKey) (message c : List Byte),
      EncryptNaive pub message = some (some c, none) →
        c.head? ≠ some (0 : Byte) ∧
        ∃ r : Int, expMod ((setBytes message : Nat) : Int) pub.E pub.N = some r ∧
          c = bigBytes r ∧ (c = [] ↔ r = 0)) ∧
    (∀ (priv : PrivateKey) (cipher d : List Byte),
      DecryptNaive priv cipher = some (some d, none) →
        d.head? ≠ some (0 : Byte) ∧
        ∃ r : Int, expMod ((setBytes cipher : Nat) : Int) priv.D (priv.P * priv.Q) = some r ∧
          d = bigBytes r ∧ (d = [] ↔ r = 0)) := by
  refine ⟨?_, ?_⟩
  · intro pub message c h
    obtain ⟨r, hr, hc⟩ := encrypt_output_form pub message c h
    subst hc
    exact ⟨bigBytes_head_ne_zero r, r, hr, rfl, bigBytes_eq_nil_iff r⟩
  · intro priv cipher d h
    obtain ⟨r, hr, hd⟩ := decrypt_output_form priv cipher d h
    subst hd
    exact ⟨bigBytes_head_ne_zero r, r, hr, rfl, bigBytes_eq_nil_iff r⟩

/-- C7, at the test vectors: the ciphertext `{0x2f}` of `{0x05}` under `(143, 7)` and
the plaintext `{0x05}` of `{0x2f}` under `(11, 13, 103)`. -/
theorem output_minimal_witness :
    (EncryptNaive { N := 143, E := 7 } [0x05] = some (some [0x2f], none) ∧
      DecryptNaive { P := 11, Q := 13, D := 103, Dp := 7, Dq := 7, Qinv := 12 } [0x2f]
        = some (some [0x05], none)) ∧
    (([0x2f] : List Byte).head? ≠ some (0 : Byte) ∧
      ∃ r : Int, expMod ((setBytes [0x05] : Nat) : Int) 7 143 = some r ∧
        ([0x2f] : List Byte) = bigBytes r ∧ (([0x2f] : List Byte) = [] ↔ r = 0)) ∧
    (([0x05] : List Byte).head? ≠ some (0 : Byte) ∧
      ∃ r : Int, expMod ((setBytes [0x2f] : Nat) : Int) 103 (11 * 13) = some r ∧
        ([0x05] : List Byte) = bigBytes r ∧ (([0x05] : List Byte) = [] ↔ r = 0)) :=
  ⟨⟨encrypt_vector_05, decrypt_vector_2f⟩,
   output_minimal.1 { N := 143, E := 7 } [0x05] [0x2f] encrypt_vector_05,
   output_minimal.2 { P := 11, Q := 13, D := 103, Dp := 7, Dq := 7, Qinv := 12 } [0x2f] [0x05]
    decrypt_vector_2f⟩

/-! ## Ciphertexts out of range, and the unused CRT fields -/

/-- C8. For a private key with `P * Q ≥ 1`, two ciphertexts whose values are congruent
modulo `P * Q` decrypt to the same bytes with a `nil` error; in particular a ciphertext
and the encoding of its residue modulo `P * Q` do. -/
theorem decrypt_congruent (priv : PrivateKey) (c1 c2 : List Byte)
    (hN : 1 ≤ priv.P * priv.Q)
    (hc : ((setBytes c1 : Nat) : Int) ≡ ((setBytes c2 : Nat) : Int) [ZMOD priv.P * priv.Q]) :
    (∃ d : List Byte, DecryptNaive priv c1 = some (some d, none) ∧
      DecryptNaive priv c2 = some (some d, none)) ∧
    DecryptNaive priv (bigBytes (((setBytes c1 : Nat) : Int) % (priv.P * priv.Q)))
      = DecryptNaive priv c1 := by
  have hne : priv.P * priv.Q ≠ 0 := by omega
  have hval : ∀ a b : Int, a ≡ b [ZMOD priv.P * priv.Q] →
      expModValue a priv.D (priv.P * priv.Q) = expModValue b priv.D (priv.P * priv.Q) := by
    intro a b hab
    unfold expModValue
    split_ifs
    · exact hab.pow _
    · rfl
  refine ⟨⟨_, decrypt_of_ne priv c1 hne, ?_⟩, ?_⟩
  · rw [decrypt_of_ne priv c2 hne, hval _ _ hc]
  · rw [decrypt_of_ne priv c1 hne, decrypt_of_ne priv _ hne, setBytes_bigBytes,
      Int.natAbs_of_nonneg (Int.emod_nonneg _ hne)]
    rw [hval _ _ (Int.mod_modEq _ _)]

/-- C8, at the small test key: the ciphertexts `{0x2f}` (47) and `{0xbe}` (190 = 47 + 143)
decrypt to the same bytes. -/
theorem decrypt_congruent_witness :
    ((1 : Int) ≤ 11 * 13 ∧ setBytes [0x2f] = 47 ∧ setBytes [0xbe] = 190) ∧
    ((∃ d : List Byte,
        DecryptNaive { P := 11, Q := 13, D := 103, Dp := 7, Dq := 7, Qinv := 12 } [0x2f]
          = some (some d, none) ∧
        DecryptNaive { P := 11, Q := 13, D := 103, Dp := 7, Dq := 7, Qinv := 12 } [0xbe]
          = some (some d, none)) ∧
      DecryptNaive { P := 11, Q := 13, D := 103, Dp := 7, Dq := 7, Qinv := 12 }
          (bigBytes (((setBytes [0x2f] : Nat) : Int) % (11 * 13)))
        = DecryptNaive { P := 11, Q := 13, D := 103, Dp := 7, Dq := 7, Qinv := 12 } [0x2f]) :=
  ⟨⟨by decide, by decide, by decide⟩,
   decrypt_congruent { P := 11, Q := 13, D := 103, Dp := 7, Dq := 7, Qinv := 12 }
    [0x2f] [0xbe] (by decide) (by decide)⟩

/-- C9. Two private keys that agree on `P`, `Q` and `D` decrypt every ciphertext to the
same result, whatever their fields `Dp`, `Dq` and `Qinv` hold. -/
theorem decrypt_ignores_crt (k1 k2 : PrivateKey) (cipher : List Byte)
    (hP : k1.P = k2.P) (hQ : k1.Q = k2.Q) (hD : k1.D = k2.D) :
    DecryptNaive k1 cipher = DecryptNaive k2 cipher := by
  unfold DecryptNaive
  rw [hP, hQ, hD]

/-- C9, at the small test key and a key with the CRT fields set to zero. -/
theorem decrypt_ignores_crt_witness :
    DecryptNaive { P := 11, Q := 13, D := 103, Dp := 7, Dq := 7, Qinv := 12 } [0x2f]
      = DecryptNaive { P := 11, Q := 13, D := 103, Dp := 0, Dq := -5, Qinv := 999 } [0x2f] :=
  decrypt_ignores_crt { P := 11, Q := 13, D := 103, Dp := 7, Dq := 7, Qinv := 12 }
    { P := 11, Q := 13, D := 103, Dp := 0, Dq := -5, Qinv := 999 } [0x2f] rfl rfl rfl

/-! ## Leading zero bytes -/

/-- C10. Zero bytes put in front of a message do not change what `EncryptNaive`
returns (the error status and the bytes); hence, when at least one zero byte is in
front, no decryption of the ciphertext gives the padded message back byte for byte. -/
theorem encrypt_leading_zeros (pub : PublicKey) (message : List Byte) (k : Nat) :
    EncryptNaive pub (List.replicate k (0 : Byte) ++ message) = EncryptNaive pub message ∧
    (1 ≤ k → ∀ (priv : PrivateKey) (c d : List Byte),
      EncryptNaive pub (List.replicate k (0 : Byte) ++ message) = some (some c, none) →
      DecryptNaive priv c = some (some d, none) →
        d ≠ List.replicate k (0 : Byte) ++ message) := by
  refine ⟨?_, ?_⟩
  · unfold EncryptNaive
    rw [setBytes_replicate_zero_append]
  · intro hk priv c d _ hd heq
    obtain ⟨r, _, hr⟩ := decrypt_output_form priv c d hd
    have hhead := bigBytes_head_ne_zero r
    rw [← hr, heq] at hhead
    obtain ⟨j, rfl⟩ : ∃ j, k = j + 1 := ⟨k - 1, by omega⟩
    simp [List.replicate_succ] at hhead

/-- C10, at the small test key: `{0x00, 0x05}` encrypts like `{0x05}`, to `{0x2f}`, and
the decryption `{0x05}` is not `{0x00, 0x05}`. -/
theorem encrypt_leading_zeros_witness :
    EncryptNaive { N := 143, E := 7 } (List.replicate 1 (0 : Byte) ++ [0x05])
      = EncryptNaive { N := 143, E := 7 } [0x05] ∧
    EncryptNaive { N := 143, E := 7 } (List.replicate 1 (0 : Byte) ++ [0x05])
      = some (some [0x2f], none) ∧
    DecryptNaive { P := 11, Q := 13, D := 103, Dp := 7, Dq := 7, Qinv := 12 } [0x2f]
      = some (some [0x05], none) ∧
    ([0x05] : List Byte) ≠ List.replicate 1 (0 : Byte) ++ [0x05] :=
  have h := encrypt_leading_zeros { N := 143, E := 7 } [0x05] 1
  have he : EncryptNaive { N := 143, E := 7 } (List.replicate 1 (0 : Byte) ++ [0x05])
      = some (some [0x2f], none) := h.1.trans encrypt_vector_05
  ⟨h.1, he, decrypt_vector_2f,
   h.2 (le_refl 1) { P := 11, Q := 13, D := 103, Dp := 7, Dq := 7, Qinv := 12 } [0x2f] [0x05]
    he decrypt_vector_2f⟩

/-! ## `DecryptNaive` has no error path -/

/-- C12. `DecryptNaive` never returns an error value: when `P * Q ≠ 0` it completes,
for every ciphertext, with bytes and a `nil` error; it stops with a run-time panic
exactly when `P * Q = 0`, the division by zero of `base.Mod(base, mod)`. -/
theorem decrypt_no_error (priv : PrivateKey) (cipher : List Byte) :
    (priv.P * priv.Q ≠ 0 ↔ ∃ d : List Byte, DecryptNaive priv cipher = some (some d, none)) ∧
    (priv.P * priv.Q = 0 ↔ DecryptNaive priv cipher = none) ∧
    (priv.P * priv.Q = 0 →
      bigMod ((setBytes cipher : Nat) : Int) (priv.P * priv.Q) = none) ∧
    (∀ (out : Option (List Byte)) (e : GoError),
      DecryptNaive priv cipher ≠ some (out, some e)) := by
  by_cases hz : priv.P * priv.Q = 0
  · have hD := decrypt_of_zero priv cipher hz
    refine ⟨⟨fun h => absurd hz h, ?_⟩, ⟨fun _ => hD, fun _ => hz⟩, ?_, ?_⟩
    · rintro ⟨d, hd⟩
      rw [hD] at hd
      simp at hd
    · intro _
      simp [bigMod, hz]
    · intro out e
      rw [hD]
      simp
  · have hD := decrypt_of_ne priv cipher hz
    refine ⟨⟨fun _ => ⟨_, hD⟩, fun _ => hz⟩, ⟨fun h => absurd h hz, ?_⟩, ?_, ?_⟩
    · intro h
      rw [hD] at h
      simp at h
    · intro h
      exact absurd h hz
    · intro out e
      rw [hD]
      simp

/-- C12, at the small test key (`P * Q = 143`) with a ciphertext above the modulus, and
at a key with `P = 0`. -/
theorem decrypt_no_error_witness :
    (∃ d : List Byte,
      DecryptNaive { P := 11, Q := 13, D := 103, Dp := 7, Dq := 7, Qinv := 12 } [0xff, 0xff]
        = some (some d, none)) ∧
    DecryptNaive { P := 0, Q := 13, D := 103, Dp := 7, Dq := 7, Qinv := 12 } [0x2f] = none :=
  ⟨(decrypt_no_error { P := 11, Q := 13, D := 103, Dp := 7, Dq := 7, Qinv := 12 }
      [0xff, 0xff]).1.mp (by decide),
   (decrypt_no_error { P := 0, Q := 13, D := 103, Dp := 7, Dq := 7, Qinv := 12 }
      [0x2f]).2.1.mp (by decide)⟩

/-! ## The documented vector of `TestExpMod` -/

/-- C14. The fourth vector of `TestExpMod`, run turn by turn through the loop:
`expMod(123456789, 54321, 999983) = 179456`. -/
theorem expMod_vector_large : expMod 123456789 54321 999983 = some 179456 := by
  unfold expMod
  simp [bigMod, bigBit, expModLoop_of_pos, expModLoop_of_nonpos, Int.shiftRight_eq_div_pow]

/-! ## The range of the results -/

theorem expModValue_lt {mod : Int} (hmod : 2 ≤ mod) (base exp : Int) :
    expModValue base exp mod < mod := by
  unfold expModValue
  split_ifs
  · exact Int.emod_lt_of_pos _ (by omega)
  · omega

/-- C16. For a modulus `≥ 2`, every integer base and every integer exponent, `expMod`
returns a value `r` with `0 ≤ r < mod`; hence a ciphertext of a successful
`EncryptNaive` under `N ≥ 2` has a value below `N` and is accepted as a message under
the same key. -/
theorem expMod_range :
    (∀ base exp mod : Int, 2 ≤ mod →
      ∃ r : Int, expMod base exp mod = some r ∧ 0 ≤ r ∧ r < mod) ∧
    (∀ (pub : PublicKey) (message c : List Byte), 2 ≤ pub.N →
      EncryptNaive pub message = some (some c, none) →
        ((setBytes c : Nat) : Int) < pub.N ∧
        ∃ c2 : List Byte, EncryptNaive pub c = some (some c2, none)) := by
  refine ⟨?_, ?_⟩
  · intro base exp mod hmod
    have hne : mod ≠ 0 := by omega
    exact ⟨_, expMod_eq_value hne base exp, expModValue_nonneg hne _ _,
      expModValue_lt hmod _ _⟩
  · intro pub message c hN hc
    have hne : pub.N ≠ 0 := by omega
    obtain ⟨r, hr, hcr⟩ := encrypt_output_form pub message c hc
    rw [expMod_eq_value hne] at hr
    injection hr with hr
    have hlt : ((setBytes c : Nat) : Int) < pub.N := by
      rw [hcr, setBytes_bigBytes, ← hr, Int.natAbs_of_nonneg (expModValue_nonneg hne _ _)]
      exact expModValue_lt hN _ _
    exact ⟨hlt, _, encrypt_of_lt pub c hlt⟩

/-- C16, at the test vectors: `expMod(-5, -3, 7)` is in range, and the ciphertext
`{0x2f}` of `{0x05}` under `(143, 7)` is below `143` and can be encrypted again. -/
theorem expMod_range_witness :
    ((2 : Int) ≤ 7 ∧ EncryptNaive { N := 143, E := 7 } [0x05] = some (some [0x2f], none)) ∧
    (∃ r : Int, expMod (-5) (-3) 7 = some r ∧ 0 ≤ r ∧ r < 7) ∧
    (((setBytes [0x2f] : Nat) : Int) < 143 ∧
      ∃ c2 : List Byte, EncryptNaive { N := 143, E := 7 } [0x2f] = some (some c2, none)) :=
  ⟨⟨by decide, encrypt_vector_05⟩,
   expMod_range.1 (-5) (-3) 7 (by decide),
   expMod_range.2 { N := 143, E := 7 } [0x05] [0x2f] (by decide) encrypt_vector_05⟩

/-! ## No division by zero in `EncryptNaive` -/

/-- C17. `EncryptNaive` never panics, whatever integers `N` and `E` are: when `N ≤ 0`
every message is rejected with `ErrMessageTooLong`, and when the range check is passed
then `N ≥ 1`, so that the call of `expMod` (the only place that divides) has a positive
modulus and returns. -/
theorem encrypt_no_division_by_zero (pub : PublicKey) (message : List Byte) :
    EncryptNaive pub message ≠ none ∧
    (pub.N ≤ 0 → EncryptNaive pub message = some (none, some GoError.ErrMessageTooLong)) ∧
    (¬ bigCmp ((setBytes message : Nat) : Int) pub.N ≥ 0 →
      1 ≤ pub.N ∧
      ∃ r : Int, expMod ((setBytes message : Nat) : Int) pub.E pub.N = some r ∧
        EncryptNaive pub message = some (some (bigBytes r), none)) := by
  have hm : (0 : Int) ≤ (setBytes message : Nat) := Int.natCast_nonneg _
  refine ⟨?_, ?_, ?_⟩
  · by_cases h : pub.N ≤ ((setBytes message : Nat) : Int)
    · rw [encrypt_of_ge pub message h]; simp
    · rw [encrypt_of_lt pub message (by omega)]; simp
  · intro hN
    exact encrypt_of_ge pub message (by omega)
  · intro hcmp
    rw [bigCmp_nonneg_iff] at hcmp
    have hlt : ((setBytes message : Nat) : Int) < pub.N := by omega
    have hne : pub.N ≠ 0 := by omega
    exact ⟨by omega, _, expMod_eq_value hne _ _, encrypt_of_lt pub message hlt⟩

/-- C17, at the moduli `0` and `-143` with the empty message. -/
theorem encrypt_no_division_by_zero_witness :
    EncryptNaive { N := 0, E := 7 } [] = some (none, some GoError.ErrMessageTooLong) ∧
    EncryptNaive { N := -143, E := 7 } [] = some (none, some GoError.ErrMessageTooLong) :=
  ⟨(encrypt_no_division_by_zero { N := 0, E := 7 } []).2.1 (by decide),
   (encrypt_no_division_by_zero { N := -143, E := 7 } []).2.1 (by decide)⟩

/-! ## Algebraic properties of unpadded encryption -/

/-- The closed form is multiplicative modulo `mod`. -/
theorem expModValue_mul {mod : Int} (hmod : 2 ≤ mod) (a b exp : Int) :
    expModValue ((a * b) % mod) exp mod
      = (expModValue a exp mod * expModValue b exp mod) % mod := by
  unfold expModValue
  split_ifs
  · have h1 : ((a * b) % mod) ^ exp.toNat ≡ (a * b) ^ exp.toNat [ZMOD mod] :=
      (Int.mod_modEq _ _).pow _
    have h2 : (a ^ exp.toNat % mod) * (b ^ exp.toNat % mod)
        ≡ a ^ exp.toNat * b ^ exp.toNat [ZMOD mod] :=
      Int.ModEq.mul (Int.mod_modEq _ _) (Int.mod_modEq _ _)
    rw [mul_pow] at h1
    exact h1.trans h2.symm
  · rw [one_mul]
    exact (Int.emod_eq_of_lt (by omega) (by omega)).symm

/-- The integer value of the ciphertext of a message below `N`. -/
theorem encrypt_value_closed (pub : PublicKey) (message : List Byte)
    (hm : ((setBytes message : Nat) : Int) < pub.N) :
    ∃ c : List Byte, EncryptNaive pub message = some (some c, none) ∧
      ((setBytes c : Nat) : Int) = expModValue ((setBytes message : Nat) : Int) pub.E pub.N := by
  have hne : pub.N ≠ 0 := by
    have : (0 : Int) ≤ (setBytes message : Nat) := Int.natCast_nonneg _
    omega
  refine ⟨_, encrypt_of_lt pub message hm, ?_⟩
  rw [setBytes_bigBytes, Int.natAbs_of_nonneg (expModValue_nonneg hne _ _)]

/-- C18. Unpadded encryption is multiplicatively homomorphic: for `N ≥ 2`, every
exponent `E` (in particular every `E ≥ 0`) and messages of values `m1, m2 < N`, a
message of value `m1 * m2 mod N` is encrypted to a ciphertext whose value is the
product of the two ciphertext values modulo `N`. -/
theorem encrypt_homomorphic (pub : PublicKey) (msg1 msg2 msg3 : List Byte)
    (hN : 2 ≤ pub.N)
    (h1 : ((setBytes msg1 : Nat) : Int) < pub.N)
    (h2 : ((setBytes msg2 : Nat) : Int) < pub.N)
    (h3 : ((setBytes msg3 : Nat) : Int)
      = (((setBytes msg1 : Nat) : Int) * ((setBytes msg2 : Nat) : Int)) % pub.N) :
    ∃ c1 c2 c3 : List Byte,
      EncryptNaive pub msg1 = some (some c1, none) ∧
      EncryptNaive pub msg2 = some (some c2, none) ∧
      EncryptNaive pub msg3 = some (some c3, none) ∧
      ((setBytes c3 : Nat) : Int)
        = (((setBytes c1 : Nat) : Int) * ((setBytes c2 : Nat) : Int)) % pub.N := by
  have hlt3 : ((setBytes msg3 : Nat) : Int) < pub.N := by
    rw [h3]
    exact Int.emod_lt_of_pos _ (by omega)
  obtain ⟨c1, hc1, hv1⟩ := encrypt_value_closed pub msg1 h1
  obtain ⟨c2, hc2, hv2⟩ := encrypt_value_closed pub msg2 h2
  obtain ⟨c3, hc3, hv3⟩ := encrypt_value_closed pub msg3 hlt3
  refine ⟨c1, c2, c3, hc1, hc2, hc3, ?_⟩
  rw [hv1, hv2, hv3, h3]
  exact expModValue_mul hN _ _ _

/-- C18, under `(143, 7)`: the messages `{0x05}` and `{0x23}` (5 and 35) and the
message `{0x20}` of their product `175 mod 143 = 32`. -/
theorem encrypt_homomorphic_witness :
    (((setBytes [0x20] : Nat) : Int)
      = (((setBytes [0x05] : Nat) : Int) * ((setBytes [0x23] : Nat) : Int)) % 143) ∧
    ∃ c1 c2 c3 : List Byte,
      EncryptNaive { N := 143, E := 7 } [0x05] = some (some c1, none) ∧
      EncryptNaive { N := 143, E := 7 } [0x23] = some (some c2, none) ∧
      EncryptNaive { N := 143, E := 7 } [0x20] = some (some c3, none) ∧
      ((setBytes c3 : Nat) : Int)
        = (((setBytes c1 : Nat) : Int) * ((setBytes c2 : Nat) : Int)) % 143 :=
  ⟨by decide,
   encrypt_homomorphic { N := 143, E := 7 } [0x05] [0x23] [0x20] (by decide) (by decide)
    (by decide) (by decide)⟩

/-- C19. Under a key with `N ≥ 2` and `E ≥ 1`, a message of value `0` (the empty
sequence, or any run of zero bytes) is encrypted to the empty sequence, and a message
of value `1` is encrypted to the single byte `{0x01}`. -/
theorem encrypt_fixed_points (pub : PublicKey) (message : List Byte)
    (hN : 2 ≤ pub.N) (hE : 1 ≤ pub.E) :
    (setBytes message = 0 → EncryptNaive pub message = some (some [], none)) ∧
    (setBytes message = 1 → EncryptNaive pub message = some (some [0x01], none)) ∧
    (∀ k : Nat, EncryptNaive pub (List.replicate k (0 : Byte)) = some (some [], none)) := by
  have hpos : 0 < pub.E := by omega
  have hEne : pub.E.toNat ≠ 0 := by omega
  have hzero : ∀ msg : List Byte, setBytes msg = 0 →
      EncryptNaive pub msg = some (some [], none) := by
    intro msg h0
    rw [encrypt_of_lt pub msg (by rw [h0]; simp; omega), h0]
    have hv : expModValue ((0 : Nat) : Int) pub.E pub.N = 0 := by
      unfold expModValue
      rw [if_pos hpos]
      simp [zero_pow hEne]
    rw [hv, (bigBytes_eq_nil_iff 0).mpr rfl]
  refine ⟨hzero message, ?_, ?_⟩
  · intro h1
    rw [encrypt_of_lt pub message (by rw [h1]; simp; omega), h1]
    have hv : expModValue ((1 : Nat) : Int) pub.E pub.N = 1 := by
      unfold expModValue
      rw [if_pos hpos]
      simp only [Nat.cast_one, one_pow]
      exact Int.emod_eq_of_lt (by omega) (by omega)
    rw [hv]
    have hb : bigBytes 1 = [0x01] := by
      unfold bigBytes
      simp [natBytes]
    rw [hb]
  · intro k
    apply hzero
    have := setBytes_replicate_zero_append k []
    simpa [setBytes_nil] using this

/-- C19, at the zero message of the round-trip test: under `(143, 7)` the message
`{0x00}` is encrypted to the empty sequence. -/
theorem encrypt_fixed_points_witness :
    ((2 : Int) ≤ 143 ∧ (1 : Int) ≤ 7 ∧ setBytes [0x00] = 0) ∧
    EncryptNaive { N := 143, E := 7 } [0x00] = some (some [], none) :=
  ⟨⟨by decide, by decide, by decide⟩,
   (encrypt_fixed_points { N := 143, E := 7 } [0x00] (by decide) (by decide)).1 (by decide)⟩

/-! ## The number of turns of the loop -/

theorem bitLength_zero : bitLength 0 = 0 := by
  simp [bitLength]

theorem popCount_zero : popCount 0 = 0 := by
  simp [popCount]

theorem bitLength_of_pos {n : Nat} (hn : 0 < n) : bitLength n = bitLength (n / 2) + 1 := by
  unfold bitLength
  rw [Nat.digits_def' (by decide) hn, List.length_cons]

theorem popCount_of_pos {n : Nat} (hn : 0 < n) : popCount n = n % 2 + popCount (n / 2) := by
  unfold popCount
  rw [Nat.digits_def' (by decide) hn, List.sum_cons]

/-- The bit length is the `Nat.size` of Mathlib. -/
theorem bitLength_eq_size (n : Nat) : bitLength n = Nat.size n := by
  unfold bitLength
  rw [Nat.digits_two_eq_bits, List.length_map, Nat.size_eq_bits_len]

theorem expModLoopCount_of_pos {exp : Int} (h : 0 < exp) (result base mod : Int)
    (c : LoopCount) :
    expModLoopCount result base exp mod c =
      (do
        let result ← if bigBit exp 0 = 1 then bigMod (result * base) mod else pure result
        let base ← bigMod (base * base) mod
        expModLoopCount result base (exp >>> (1 : Nat)) mod
          { iterations := c.iterations + 1,
            multiplications :=
              if bigBit exp 0 = 1 then c.multiplications + 1 else c.multiplications,
            squarings := c.squarings + 1 }) := by
  rw [expModLoopCount]
  simp [(bigCmp_zero_pos_iff exp).mpr h]

theorem expModLoopCount_of_nonpos {exp : Int} (h : exp ≤ 0) (result base mod : Int)
    (c : LoopCount) :
    expModLoopCount result base exp mod c = some (result, c) := by
  rw [expModLoopCount]
  have : ¬ bigCmp exp 0 > 0 := by
    rw [bigCmp_zero_pos_iff]; omega
  simp [this]

/-- The counted loop returns the value of the loop, and its counters advance by the
bit length of the exponent (turns and squarings) and by its number of one bits
(multiplications). -/
theorem expModLoopCount_eq (mod : Int) (hmod : mod ≠ 0) :
    ∀ (n : Nat) (exp : Int), exp.toNat = n → ∀ (result base : Int) (c : LoopCount),
      ∃ v : Int, expModLoop result base exp mod = some v ∧
        expModLoopCount result base exp mod c = some (v,
          { iterations := c.iterations + bitLength exp.toNat,
            multiplications := c.multiplications + popCount exp.toNat,
            squarings := c.squarings + bitLength exp.toNat }) := by
  intro n
  induction n using Nat.strong_induction_on with
  | _ n ih =>
    intro exp hn result base c
    by_cases hpos : 0 < exp
    · have hsh : exp >>> (1 : Nat) = exp / 2 := by
        rw [Int.shiftRight_eq_div_pow]; norm_num
      have hhalf : (exp / 2).toNat = exp.toNat / 2 := by omega
      have hnpos : 0 < exp.toNat := by omega
      rw [expModLoop_of_pos hpos, expModLoopCount_of_pos hpos, bigBit_zero, hsh,
        bitLength_of_pos hnpos, popCount_of_pos hnpos]
      by_cases hodd : exp % 2 = 1
      · have hbit : exp.toNat % 2 = 1 := by omega
        simp only [hodd, if_true, bigMod_of_ne hmod, Option.bind_eq_bind, Option.some_bind]
        obtain ⟨v, hv, hc⟩ := ih (exp / 2).toNat (by omega) (exp / 2) rfl
          ((result * base) % mod) ((base * base) % mod)
          { iterations := c.iterations + 1, multiplications := c.multiplications + 1,
            squarings := c.squarings + 1 }
        refine ⟨v, hv, ?_⟩
        rw [hc, hhalf, hbit]
        simp only [Option.some.injEq, Prod.mk.injEq, true_and, LoopCount.mk.injEq]
        omega
      · have hbit : exp.toNat % 2 = 0 := by omega
        simp only [hodd, if_false, bigMod_of_ne hmod, Option.bind_eq_bind, Option.some_bind,
          Option.pure_def]
        obtain ⟨v, hv, hc⟩ := ih (exp / 2).toNat (by omega) (exp / 2) rfl
          result ((base * base) % mod)
          { iterations := c.iterations + 1, multiplications := c.multiplications,
            squarings := c.squarings + 1 }
        refine ⟨v, hv, ?_⟩
        rw [hc, hhalf, hbit]
        simp only [Option.some.injEq, Prod.mk.injEq, true_and, LoopCount.mk.injEq]
        omega
    · have hz : exp.toNat = 0 := by omega
      rw [expModLoop_of_nonpos (by omega), expModLoopCount_of_nonpos (by omega), hz,
        bitLength_zero, popCount_zero]
      exact ⟨result, rfl, rfl⟩

/-- The counted `expMod` returns what `expMod` returns, next to the counters. -/
theorem expModCount_eq {mod : Int} (hmod : mod ≠ 0) (base exp : Int) :
    ∃ v : Int, expMod base exp mod = some v ∧
      expModCount base exp mod = some (v,
        { iterations := bitLength exp.toNat, multiplications := popCount exp.toNat,
          squarings := bitLength exp.toNat }) := by
  obtain ⟨v, hv, hc⟩ := expModLoopCount_eq mod hmod exp.toNat exp rfl 1 (base % mod)
    { iterations := 0, multiplications := 0, squarings := 0 }
  refine ⟨v, ?_, ?_⟩
  · unfold expMod
    simp only [bigMod_of_ne hmod, Option.bind_eq_bind, Option.some_bind]
    exact hv
  · unfold expModCount
    simp only [bigMod_of_ne hmod, Option.bind_eq_bind, Option.some_bind]
    rw [hc]
    simp

/-- With a zero modulus the counted `expMod` panics, like `expMod`, before the loop. -/
theorem expModCount_zero_mod (base exp : Int) : expModCount base exp 0 = none := by
  simp [expModCount, bigMod]

/-- C11. For every integer base, every exponent `< 0` and every modulus `≥ 1` (the
modulus `1` included), the loop of `expMod` runs zero turns and `expMod` returns `1`. -/
theorem expMod_negative_exponent (base exp mod : Int) (hexp : exp < 0) (hmod : 1 ≤ mod) :
    expMod base exp mod = some 1 ∧
    expModCount base exp mod
      = some (1, { iterations := 0, multiplications := 0, squarings := 0 }) := by
  have hne : mod ≠ 0 := by omega
  refine ⟨?_, ?_⟩
  · rw [expMod_eq hne, if_neg (by omega)]
  · unfold expModCount
    simp only [bigMod_of_ne hne, Option.bind_eq_bind, Option.some_bind]
    exact expModLoopCount_of_nonpos (by omega) _ _ _ _

/-- C11, at `(base, exp, mod) = (5, -3, 1)`. -/
theorem expMod_negative_exponent_witness :
    ((-3 : Int) < 0 ∧ (1 : Int) ≤ 1) ∧
    expMod 5 (-3) 1 = some 1 ∧
    expModCount 5 (-3) 1
      = some (1, { iterations := 0, multiplications := 0, squarings := 0 }) :=
  ⟨⟨by decide, by decide⟩, expMod_negative_exponent 5 (-3) 1 (by decide) (by decide)⟩

/-- C15. The loop of `expMod` ends for every integer exponent: with a non-zero modulus
`expMod` returns, and the loop has then run exactly `bitLength exp` turns, each with
one squaring, and `popCount exp` conditional multiplications when `exp ≥ 0`, and no
turn at all when `exp ≤ 0`.  (With a zero modulus `expMod` panics at line 10, before
the loop.) -/
theorem expMod_loop_count (base exp mod : Int) (hmod : mod ≠ 0) :
    ∃ (v : Int) (c : LoopCount),
      expMod base exp mod = some v ∧ expModCount base exp mod = some (v, c) ∧
      (0 ≤ exp → c.iterations = bitLength exp.toNat ∧ c.squarings = bitLength exp.toNat ∧
        c.multiplications = popCount exp.toNat) ∧
      (exp ≤ 0 → c.iterations = 0 ∧ c.squarings = 0 ∧ c.multiplications = 0) ∧
      bitLength exp.toNat = Nat.size exp.toNat := by
  obtain ⟨v, hv, hc⟩ := expModCount_eq hmod base exp
  refine ⟨v, _, hv, hc, fun _ => ⟨rfl, rfl, rfl⟩, ?_, bitLength_eq_size _⟩
  intro hle
  have hz : exp.toNat = 0 := by omega
  simp only [hz, bitLength_zero, popCount_zero, and_self]

/-- C15, at the exponent `7 = 0b111` of the test key: three turns, three squarings and
three multiplications; `bitLength 54321 = 16` and `popCount 54321 = 7`. -/
theorem expMod_loop_count_witness :
    (143 : Int) ≠ 0 ∧
    (∃ (v : Int) (c : LoopCount),
      expMod 5 7 143 = some v ∧ expModCount 5 7 143 = some (v, c) ∧
      (0 ≤ (7 : Int) → c.iterations = bitLength (7 : Int).toNat ∧
        c.squarings = bitLength (7 : Int).toNat ∧
        c.multiplications = popCount (7 : Int).toNat) ∧
      ((7 : Int) ≤ 0 → c.iterations = 0 ∧ c.squarings = 0 ∧ c.multiplications = 0) ∧
      bitLength (7 : Int).toNat = Nat.size (7 : Int).toNat) ∧
    bitLength (7 : Int).toNat = 3 ∧ popCount (7 : Int).toNat = 3 ∧
    bitLength 54321 = 16 ∧ popCount 54321 = 7 :=
  ⟨by decide, expMod_loop_count 5 7 143 (by decide),
   by simp [bitLength], by simp [popCount], by simp [bitLength], by simp [popCount]⟩

/-! ## The store: what a call leaves in the cells of its caller -/

/-- One turn of the loop on the store, when the pointer variables `result`, `base`
and `exp` hold three different cells, none of them the cell of `mod`: the turn writes
these three cells as the turn of `expModLoop` does, and no other cell. -/
theorem expModStep_spec {result base exp mod : Nat} (hre : result ≠ exp) (hbe : base ≠ exp)
    (hrb : result ≠ base) (hmr : mod ≠ result) (hmb : mod ≠ base) (hme : mod ≠ exp)
    (s : Store) (hm0 : s.cell mod ≠ 0) :
    ∃ s1 : Store, expModStep result base exp mod s = some s1 ∧ s1.next = s.next ∧
      s1.cell result = (if bigBit (s.cell exp) 0 = 1
        then (s.cell result * s.cell base) % s.cell mod else s.cell result) ∧
      s1.cell exp = s.cell exp >>> (1 : Nat) ∧
      s1.cell base = (s.cell base * s.cell base) % s.cell mod ∧
      ∀ a : Nat, a ≠ result → a ≠ base → a ≠ exp → s1.cell a = s.cell a := by
  unfold expModStep
  by_cases hbit : bigBit (s.cell exp) 0 = 1
  · simp only [hbit, if_true, Store.modInt, Store.mulInt, Store.rshInt, Store.write,
      if_neg hmr, if_neg hmb, if_neg hme, if_neg hm0, Option.some_bind, if_pos rfl,
      if_neg hre, if_neg hbe, if_neg hrb, if_neg (Ne.symm hre), if_neg (Ne.symm hbe),
      if_neg (Ne.symm hrb)]
    refine ⟨_, rfl, rfl, ?_, ?_, ?_, ?_⟩
    · simp [hrb, hre]
    · simp [Ne.symm hbe]
    · simp
    · intro a ha1 ha2 ha3
      simp [ha1, ha2, ha3]
  · simp only [hbit, if_false, Store.modInt, Store.mulInt, Store.rshInt, Store.write,
      if_neg hmr, if_neg hmb, if_neg hme, if_neg hm0, Option.some_bind, if_pos rfl,
      if_neg hre, if_neg hbe, if_neg hrb, if_neg (Ne.symm hre), if_neg (Ne.symm hbe),
      if_neg (Ne.symm hrb)]
    refine ⟨_, rfl, rfl, ?_, ?_, ?_, ?_⟩
    · simp [hrb, hre]
    · simp [Ne.symm hbe]
    · simp
    · intro a ha1 ha2 ha3
      simp [ha1, ha2, ha3]

/-- The loop on the store, started with `result`, `base`, `exp` and `mod` at four
allocated cells: it returns, leaves in the cell of `result` the value computed by
`expModLoop`, and among the cells allocated before it writes no other than those of
`result`, `base` and `exp`. -/
theorem expModLoopS_spec {result base exp mod : Nat} (hre : result ≠ exp) (hbe : base ≠ exp)
    (hrb : result ≠ base) (hmr : mod ≠ result) (hmb : mod ≠ base) (hme : mod ≠ exp) :
    ∀ (n : Nat) (s : Store), (s.cell exp).toNat = n →
      result < s.next → base < s.next → exp < s.next → mod < s.next → s.cell mod ≠ 0 →
      ∃ s1 : Store, expModLoopS result base exp mod hre hbe s = some s1 ∧
        s.next ≤ s1.next ∧
        expModLoop (s.cell result) (s.cell base) (s.cell exp) (s.cell mod)
          = some (s1.cell result) ∧
        ∀ a : Nat, a < s.next → a ≠ result → a ≠ base → a ≠ exp →
          s1.cell a = s.cell a := by
  intro n
  induction n using Nat.strong_induction_on with
  | _ n ih =>
    intro s hn hrn hbn hen hmn hm0
    have hzero : (s.alloc 0).cell s.next = 0 := by
      simp only [Store.alloc, if_true]
    have hold : ∀ a : Nat, a < s.next → (s.alloc 0).cell a = s.cell a := by
      intro a ha
      simp only [Store.alloc]
      rw [if_neg (by omega)]
    have hnx : (s.alloc 0).next = s.next + 1 := rfl
    have hm0a : (s.alloc 0).cell mod ≠ 0 := by
      rw [hold mod hmn]; exact hm0
    by_cases hpos : 0 < s.cell exp
    · have hcmp : bigCmp ((s.alloc 0).cell exp) ((s.alloc 0).cell s.next) > 0 := by
        rw [hzero, hold exp hen]
        exact (bigCmp_zero_pos_iff _).mpr hpos
      obtain ⟨t, hstep, hnext, hr, he, hb, hframe⟩ :=
        expModStep_spec hre hbe hrb hmr hmb hme (s.alloc 0) hm0a
      rw [hold result hrn, hold base hbn, hold exp hen, hold mod hmn] at hr
      rw [hold exp hen] at he
      rw [hold base hbn, hold mod hmn] at hb
      have hm1 : t.cell mod = s.cell mod := by
        rw [hframe mod hmr hmb hme, hold mod hmn]
      have hdec : (t.cell exp).toNat < n := by
        rw [he, Int.shiftRight_eq_div_pow]
        norm_num
        omega
      have htn : t.next = s.next + 1 := by rw [hnext, hnx]
      obtain ⟨s1, hloop, hnext1, hval, hframe1⟩ := ih _ hdec t rfl
        (by omega) (by omega) (by omega) (by omega) (by rwa [hm1])
      refine ⟨s1, ?_, by omega, ?_, ?_⟩
      · rw [expModLoopS]
        simp only [hcmp, dite_true]
        split
        · rename_i heq
          rw [hstep] at heq
          cases heq
        · rename_i t1 heq
          rw [hstep] at heq
          injection heq with heq
          subst heq
          exact hloop
      · rw [hr, he, hb, hm1, bigBit_zero] at hval
        rw [expModLoop_of_pos hpos, bigBit_zero]
        by_cases hodd : s.cell exp % 2 = 1
        · simp only [hodd, if_true, bigMod_of_ne hm0, Option.bind_eq_bind,
            Option.some_bind] at hval ⊢
          exact hval
        · simp only [hodd, if_false, bigMod_of_ne hm0, Option.bind_eq_bind,
            Option.some_bind, Option.pure_def] at hval ⊢
          exact hval
      · intro a ha h1 h2 h3
        rw [hframe1 a (by omega) h1 h2 h3, hframe a h1 h2 h3, hold a ha]
    · have hcmp : ¬ bigCmp ((s.alloc 0).cell exp) ((s.alloc 0).cell s.next) > 0 := by
        rw [hzero, hold exp hen, bigCmp_zero_pos_iff]
        exact hpos
      refine ⟨s.alloc 0, ?_, by omega, ?_, fun a ha _ _ _ => hold a ha⟩
      · rw [expModLoopS]
        simp only [hcmp, dite_false]
      · rw [hold result hrn]
        exact expModLoop_of_nonpos (by omega) _ _ _

/-- What a call of `expMod` does to the store, for arguments that are allocated cells:
it panics exactly when the cell of `mod` holds zero; otherwise it returns the address of
a new cell holding the value of `expMod` on the values of the arguments, and every
cell allocated before the call holds its old value. -/
theorem expModS_spec (base exp mod : Nat) (s : Store)
    (hb : base < s.next) (he : exp < s.next) (hm : mod < s.next) :
    (s.cell mod = 0 → expModS base exp mod s = none) ∧
    (s.cell mod ≠ 0 → ∃ s1 : Store, expModS base exp mod s = some (s.next, s1) ∧
      s.next + 3 ≤ s1.next ∧
      expMod (s.cell base) (s.cell exp) (s.cell mod) = some (s1.cell s.next) ∧
      ∀ a : Nat, a < s.next → s1.cell a = s.cell a) := by
  have hb0 : base ≠ s.next := by omega
  have hb1 : base ≠ s.next + 1 := by omega
  have he0 : exp ≠ s.next := by omega
  have he1 : exp ≠ s.next + 1 := by omega
  have hm0 : mod ≠ s.next := by omega
  have hm1 : mod ≠ s.next + 1 := by omega
  have hm2 : mod ≠ s.next + 1 + 1 := by omega
  obtain ⟨s3, hs3⟩ : ∃ s3 : Store,
      s3 = ((((s.alloc 1).alloc 0).setInt (s.next + 1) exp).alloc 0).setInt
        (s.next + 1 + 1) base := ⟨_, rfl⟩
  have hunf : expModS base exp mod s
      = (s3.modInt (s.next + 1 + 1) (s.next + 1 + 1) mod).bind fun s4 =>
        (expModLoopS s.next (s.next + 1 + 1) (s.next + 1) mod
          (by omega) (by omega) s4).bind fun s5 => some (s.next, s5) := by
    subst hs3
    rfl
  have hn3 : s3.next = s.next + 3 := by
    subst hs3
    rfl
  have hc_r : s3.cell s.next = 1 := by
    subst hs3
    simp only [Store.alloc, Store.setInt, Store.write]
    split_ifs <;> first | rfl | (exfalso; omega)
  have hc_e : s3.cell (s.next + 1) = s.cell exp := by
    subst hs3
    simp only [Store.alloc, Store.setInt, Store.write]
    split_ifs <;> first | rfl | (exfalso; omega)
  have hc_b : s3.cell (s.next + 1 + 1) = s.cell base := by
    subst hs3
    simp only [Store.alloc, Store.setInt, Store.write]
    split_ifs <;> first | rfl | (exfalso; omega)
  have hc_f : ∀ a : Nat, a < s.next → s3.cell a = s.cell a := by
    intro a ha
    subst hs3
    simp only [Store.alloc, Store.setInt, Store.write]
    split_ifs <;> first | rfl | (exfalso; omega)
  have hc_m : s3.cell mod = s.cell mod := hc_f mod hm
  rw [hunf]
  refine ⟨?_, ?_⟩
  · intro hz
    simp [Store.modInt, hc_m, hz]
  · intro hnz
    have hmod4 : s3.modInt (s.next + 1 + 1) (s.next + 1 + 1) mod
        = some (s3.write (s.next + 1 + 1) (s.cell base % s.cell mod)) := by
      simp [Store.modInt, hc_m, hnz, hc_b]
    obtain ⟨s5, hloop, hn5, hval, hframe⟩ :=
      @expModLoopS_spec s.next (s.next + 1 + 1) (s.next + 1) mod
        (by omega) (by omega) (by omega) hm0 hm2 hm1 _
        (s3.write (s.next + 1 + 1) (s.cell base % s.cell mod)) rfl
        (by show s.next < s3.next; omega) (by show s.next + 1 + 1 < s3.next; omega)
        (by show s.next + 1 < s3.next; omega) (by show mod < s3.next; omega)
        (by
          simp only [Store.write]
          rw [if_neg hm2, hc_m]
          exact hnz)
    refine ⟨s5, ?_, ?_, ?_, ?_⟩
    · rw [hmod4]
      simp only [Option.some_bind, hloop]
    · have : (s3.write (s.next + 1 + 1) (s.cell base % s.cell mod)).next = s3.next := rfl
      omega
    · have e1 : (s3.write (s.next + 1 + 1) (s.cell base % s.cell mod)).cell s.next = 1 := by
        simp only [Store.write]
        rw [if_neg (by omega)]
        exact hc_r
      have e2 : (s3.write (s.next + 1 + 1) (s.cell base % s.cell mod)).cell (s.next + 1 + 1)
          = s.cell base % s.cell mod := by
        simp only [Store.write, if_true]
      have e3 : (s3.write (s.next + 1 + 1) (s.cell base % s.cell mod)).cell (s.next + 1)
          = s.cell exp := by
        simp only [Store.write]
        rw [if_neg (by omega)]
        exact hc_e
      have e4 : (s3.write (s.next + 1 + 1) (s.cell base % s.cell mod)).cell mod
          = s.cell mod := by
        simp only [Store.write]
        rw [if_neg hm2]
        exact hc_m
      rw [e1, e2, e3, e4] at hval
      unfold expMod
      simp only [bigMod_of_ne hnz, Option.bind_eq_bind, Option.some_bind]
      exact hval
    · intro a ha
      rw [hframe a (by show a < s3.next; omega) (by omega) (by omega) (by omega)]
      have ha2 : a ≠ s.next + 1 + 1 := by omega
      simp only [Store.write]
      rw [if_neg ha2]
      exact hc_f a ha

/-- What a call of `EncryptNaive` does to the store, for a key whose `N` is an allocated
cell: it returns what `EncryptNaive` returns on the values, and every cell allocated
before the call holds its old value. -/
theorem EncryptNaiveS_spec (pub : PublicKeyS) (message : List Byte) (s : Store)
    (hN : pub.N < s.next) :
    (EncryptNaiveS pub message s).map Prod.fst
        = EncryptNaive { N := s.cell pub.N, E := pub.E } message ∧
    ∀ (res : Result) (s1 : Store), EncryptNaiveS pub message s = some (res, s1) →
      ∀ a : Nat, a < s.next → s1.cell a = s.cell a := by
  obtain ⟨t, ht⟩ : ∃ t : Store,
      t = (s.alloc 0).write s.next ((setBytes message : Nat) : Int) := ⟨_, rfl⟩
  have htn : t.next = s.next + 1 := by subst ht; rfl
  have htm : t.cell s.next = ((setBytes message : Nat) : Int) := by
    subst ht
    simp only [Store.alloc, Store.write, if_true]
  have htf : ∀ a : Nat, a < s.next → t.cell a = s.cell a := by
    intro a ha
    subst ht
    simp only [Store.alloc, Store.write]
    split_ifs <;> first | rfl | (exfalso; omega)
  have hunf : EncryptNaiveS pub message s
      = if bigCmp (t.cell s.next) (t.cell pub.N) ≥ 0 then
          some ((none, some GoError.ErrMessageTooLong), t)
        else
          (expModS s.next t.next pub.N (t.alloc pub.E)).bind fun r =>
            some ((some (bigBytes (r.2.cell r.1)), none), r.2) := by
    subst ht
    rfl
  rw [hunf, htm, htf pub.N hN]
  by_cases hcmp : bigCmp ((setBytes message : Nat) : Int) (s.cell pub.N) ≥ 0
  · rw [if_pos hcmp]
    refine ⟨?_, ?_⟩
    · unfold EncryptNaive
      simp only [hcmp, if_true, Option.map_some']
    · intro res s1 h a ha
      injection h with h
      injection h with _ h
      rw [← h]
      exact htf a ha
  · rw [if_neg hcmp]
    have hlt : ((setBytes message : Nat) : Int) < s.cell pub.N := by
      rw [bigCmp_nonneg_iff] at hcmp
      omega
    have hne : s.cell pub.N ≠ 0 := by
      have : (0 : Int) ≤ (setBytes message : Nat) := Int.natCast_nonneg _
      omega
    obtain ⟨u, hu⟩ : ∃ u : Store, u = t.alloc pub.E := ⟨_, rfl⟩
    have hun : u.next = s.next + 1 + 1 := by subst hu; rw [← htn]; rfl
    have hum : u.cell s.next = ((setBytes message : Nat) : Int) := by
      subst hu
      simp only [Store.alloc]
      rw [if_neg (by omega)]
      exact htm
    have hue : u.cell t.next = pub.E := by
      subst hu
      simp only [Store.alloc, if_true]
    have huf : ∀ a : Nat, a < s.next → u.cell a = s.cell a := by
      intro a ha
      subst hu
      simp only [Store.alloc]
      rw [if_neg (by omega)]
      exact htf a ha
    rw [← hu]
    have hspec := (expModS_spec s.next t.next pub.N u (by omega) (by omega) (by omega)).2
      (by rw [huf pub.N hN]; exact hne)
    obtain ⟨s5, h5, _, hval, hframe⟩ := hspec
    rw [hum, hue, huf pub.N hN] at hval
    rw [h5]
    refine ⟨?_, ?_⟩
    · unfold EncryptNaive
      simp only [hcmp, if_false, hval, Option.some_bind, Option.map_some', Option.bind_eq_bind]
    · intro res s1 h a ha
      simp only [Option.some_bind] at h
      injection h with h
      injection h with _ h
      rw [← h, hframe a (by omega)]
      exact huf a ha

/-- What a call of `DecryptNaive` does to the store, for a key whose `P`, `Q` and `D`
are allocated cells: it returns what `DecryptNaive` returns on the values, and every
cell allocated before the call holds its old value. -/
theorem DecryptNaiveS_spec (priv : PrivateKeyS) (cipher : List Byte) (s : Store)
    (hP : priv.P < s.next) (hQ : priv.Q < s.next) (hD : priv.D < s.next) :
    (DecryptNaiveS priv cipher s).map Prod.fst
        = DecryptNaive
            { P := s.cell priv.P
              Q := s.cell priv.Q
              D := s.cell priv.D
              Dp := s.cell priv.Dp
              Dq := s.cell priv.Dq
              Qinv := s.cell priv.Qinv } cipher ∧
    ∀ (res : Result) (s1 : Store), DecryptNaiveS priv cipher s = some (res, s1) →
      ∀ a : Nat, a < s.next → s1.cell a = s.cell a := by
  obtain ⟨u, hu⟩ : ∃ u : Store,
      u = (((s.alloc 0).write s.next ((setBytes cipher : Nat) : Int)).alloc 0).mulInt
        (s.next + 1) priv.P priv.Q := ⟨_, rfl⟩
  have hun : u.next = s.next + 1 + 1 := by subst hu; rfl
  have huc : u.cell s.next = ((setBytes cipher : Nat) : Int) := by
    subst hu
    simp only [Store.alloc, Store.write, Store.mulInt]
    split_ifs <;> first | rfl | (exfalso; omega)
  have hu_n : u.cell (s.next + 1) = s.cell priv.P * s.cell priv.Q := by
    subst hu
    simp only [Store.alloc, Store.write, Store.mulInt]
    split_ifs <;> first | rfl | (exfalso; omega)
  have huf : ∀ a : Nat, a < s.next → u.cell a = s.cell a := by
    intro a ha
    subst hu
    simp only [Store.alloc, Store.write, Store.mulInt]
    split_ifs <;> first | rfl | (exfalso; omega)
  have hunf : DecryptNaiveS priv cipher s
      = (expModS s.next priv.D (s.next + 1) u).bind fun r =>
          some ((some (bigBytes (r.2.cell r.1)), none), r.2) := by
    subst hu
    rfl
  rw [hunf]
  have hspec := expModS_spec s.next priv.D (s.next + 1) u (by omega) (by omega) (by omega)
  rw [hu_n, huc, huf priv.D hD] at hspec
  by_cases hz : s.cell priv.P * s.cell priv.Q = 0
  · rw [hspec.1 hz]
    refine ⟨?_, ?_⟩
    · rw [decrypt_of_zero _ _ hz]
      rfl
    · intro res s1 h
      simp at h
  · obtain ⟨s5, h5, _, hval, hframe⟩ := hspec.2 hz
    rw [h5]
    refine ⟨?_, ?_⟩
    · unfold DecryptNaive
      simp only [hval, Option.some_bind, Option.map_some', Option.bind_eq_bind]
    · intro res s1 h a ha
      simp only [Option.some_bind] at h
      injection h with h
      injection h with _ h
      rw [← h, hframe a (by omega)]
      exact huf a ha

/-- C13. On the store of mutable `big.Int` cells, a call of `expMod` whose arguments are
allocated cells computes the value of `expMod` and, when it returns, the cells of `base`,
`exp` and `mod` (and every other cell allocated before the call) hold the values they
held before: the loop writes only the three cells allocated by the call.  Hence
`EncryptNaive` leaves the cell of `pub.N`, and `DecryptNaive` the cells of `priv.P`,
`priv.Q` and `priv.D`, unchanged, while returning what the functions on values return. -/
theorem expMod_leaves_arguments :
    (∀ (base exp mod : Nat) (s : Store), base < s.next → exp < s.next → mod < s.next →
      (expModS base exp mod s).map (fun r => r.2.cell r.1)
          = expMod (s.cell base) (s.cell exp) (s.cell mod) ∧
      ∀ (r : Nat) (s1 : Store), expModS base exp mod s = some (r, s1) →
        s1.cell base = s.cell base ∧ s1.cell exp = s.cell exp ∧ s1.cell mod = s.cell mod ∧
        s.next ≤ r ∧ ∀ a : Nat, a < s.next → s1.cell a = s.cell a) ∧
    (∀ (pub : PublicKeyS) (message : List Byte) (s : Store), pub.N < s.next →
      (EncryptNaiveS pub message s).map Prod.fst
          = EncryptNaive { N := s.cell pub.N, E := pub.E } message ∧
      ∀ (res : Result) (s1 : Store), EncryptNaiveS pub message s = some (res, s1) →
        s1.cell pub.N = s.cell pub.N) ∧
    (∀ (priv : PrivateKeyS) (cipher : List Byte) (s : Store),
      priv.P < s.next → priv.Q < s.next → priv.D < s.next →
      (DecryptNaiveS priv cipher s).map Prod.fst
          = DecryptNaive
              { P := s.cell priv.P
                Q := s.cell priv.Q
                D := s.cell priv.D
                Dp := s.cell priv.Dp
                Dq := s.cell priv.Dq
                Qinv := s.cell priv.Qinv } cipher ∧
      ∀ (res : Result) (s1 : Store), DecryptNaiveS priv cipher s = some (res, s1) →
        s1.cell priv.P = s.cell priv.P ∧ s1.cell priv.Q = s.cell priv.Q ∧
        s1.cell priv.D = s.cell priv.D) := by
  refine ⟨?_, ?_, ?_⟩
  · intro base exp mod s hb he hm
    have hspec := expModS_spec base exp mod s hb he hm
    by_cases hz : s.cell mod = 0
    · rw [hspec.1 hz]
      refine ⟨?_, ?_⟩
      · rw [hz, expMod_zero_mod]
        rfl
      · intro r s1 h
        simp at h
    · obtain ⟨s5, h5, _, hval, hframe⟩ := hspec.2 hz
      rw [h5]
      refine ⟨?_, ?_⟩
      · rw [hval]
        rfl
      · intro r s1 h
        injection h with h
        injection h with hr hs
        subst hs
        exact ⟨hframe base hb, hframe exp he, hframe mod hm, by omega, hframe⟩
  · intro pub message s hN
    obtain ⟨href, hframe⟩ := EncryptNaiveS_spec pub message s hN
    exact ⟨href, fun res s1 h => hframe res s1 h pub.N hN⟩
  · intro priv cipher s hP hQ hD
    obtain ⟨href, hframe⟩ := DecryptNaiveS_spec priv cipher s hP hQ hD
    exact ⟨href, fun res s1 h =>
      ⟨hframe res s1 h priv.P hP, hframe res s1 h priv.Q hQ, hframe res s1 h priv.D hD⟩⟩

/-- C13, on the store with the cells `5`, `7`, `143` at the addresses `0`, `1`, `2`:
`expMod(&5, &7, &143)`, and `EncryptNaive` with `pub.N` at the address `2`. -/
theorem expMod_leaves_arguments_witness :
    (0 < (Store.ofList [5, 7, 143]).next ∧ 1 < (Store.ofList [5, 7, 143]).next ∧
      2 < (Store.ofList [5, 7, 143]).next) ∧
    ((expModS 0 1 2 (Store.ofList [5, 7, 143])).map (fun r => r.2.cell r.1)
        = expMod ((Store.ofList [5, 7, 143]).cell 0) ((Store.ofList [5, 7, 143]).cell 1)
            ((Store.ofList [5, 7, 143]).cell 2) ∧
      ∀ (r : Nat) (s1 : Store), expModS 0 1 2 (Store.ofList [5, 7, 143]) = some (r, s1) →
        s1.cell 0 = (Store.ofList [5, 7, 143]).cell 0 ∧
        s1.cell 1 = (Store.ofList [5, 7, 143]).cell 1 ∧
        s1.cell 2 = (Store.ofList [5, 7, 143]).cell 2 ∧
        (Store.ofList [5, 7, 143]).next ≤ r ∧
        ∀ a : Nat, a < (Store.ofList [5, 7, 143]).next →
          s1.cell a = (Store.ofList [5, 7, 143]).cell a) ∧
    ((EncryptNaiveS { N := 2, E := 7 } [0x05] (Store.ofList [5, 7, 143])).map Prod.fst
        = EncryptNaive { N := (Store.ofList [5, 7, 143]).cell 2, E := 7 } [0x05] ∧
      ∀ (res : Result) (s1 : Store),
        EncryptNaiveS { N := 2, E := 7 } [0x05] (Store.ofList [5, 7, 143]) = some (res, s1) →
          s1.cell 2 = (Store.ofList [5, 7, 143]).cell 2) :=
  ⟨⟨by decide, by decide, by decide⟩,
   expMod_leaves_arguments.1 0 1 2 (Store.ofList [5, 7, 143]) (by decide) (by decide)
    (by decide),
   expMod_leaves_arguments.2.1 { N := 2, E := 7 } [0x05] (Store.ofList [5, 7, 143])
    (by decide)⟩

/-- The call of the witness of C13, evaluated: it returns a cell holding `47` and the
three cells of the caller still hold `5`, `7` and `143`. -/
theorem expModS_vector :
    (expModS 0 1 2 (Store.ofList [5, 7, 143])).map
        (fun r => (r.2.cell r.1, r.2.cell 0, r.2.cell 1, r.2.cell 2))
      = some (47, 5, 7, 143) := by
  have hval47 : expMod 5 7 143 = some 47 := by
    unfold expMod
    simp [bigMod, bigBit, expModLoop_of_pos, expModLoop_of_nonpos, Int.shiftRight_eq_div_pow]
  obtain ⟨s1, h, _, hval, hf⟩ :=
    (expModS_spec 0 1 2 (Store.ofList [5, 7, 143]) (by decide) (by decide) (by decide)).2
      (by decide)
  have hv : expMod 5 7 143 = some (s1.cell 3) := hval
  rw [hval47] at hv
  injection hv with hv
  have h0 : s1.cell 0 = 5 := hf 0 (by decide)
  have h1 : s1.cell 1 = 7 := hf 1 (by decide)
  have h2 : s1.cell 2 = 143 := hf 2 (by decide)
  rw [h]
  show some (s1.cell 3, s1.cell 0, s1.cell 1, s1.cell 2) = some (47, 5, 7, 143)
  rw [← hv, h0, h1, h2]

end MyRSA
